import Mathlib

/-!
Verification of the MultiTools bounded lock-free queue family.

This file gives a shallow embedding of the repository's queue code and
settles the specification claims against it.  The components modelled are:

* `Spsc`    — the SPSC ring buffer of `src/spsc.h` (template `SPSCQueue` with
  `EnableCache = true`, the default used throughout the repo) and its
  semantically identical sibling in `src/spsc/spsc.h`.  These two headers
  implement the same state machine: masked `head`/`tail` indices, a
  producer-side `cached_tail` and a consumer-side `cached_head` that are
  refreshed from the real index only when the fast-path test fails, and a
  buffer of `Capacity` cells of which `Capacity - 1` are usable.
* `ShardedMpsc` — the sharded MPSC of `src/MPSC.h`: an array of
  `MaxProducers` SPSC rings, an atomic producer counter used to assign a
  shard to each producer (`counter % MaxProducers`), and a round-robin
  consumer cursor.
* `SeqMpsc`  — the slot-seq MPSC of `src/mpsc/seq_mpsc.h`: a single ring
  whose cells carry a sequence tag, initially `seq[i] = i`; a push of
  sequence `c` waits until `seq[c % N] = c`, writes, and publishes
  `seq := c + 1`; the single consumer waits until `seq[e % N] = e + 1`,
  reads, and releases `seq := e + N`.
* `Reorderer` — the two-level reordering buffer of
  `src/mpsc/mpsc_seq.cpp` (`SeqMpsc::Reorderer`): a fast array of `B`
  slots addressed by `seq % B`, an overflow map keyed by sequence, and a
  `next_expected_seq` drain cursor.

Concurrency is modelled by sequentialisation: each queue operation is a
pure state transformer and an interleaving is a list of operations.  An
operation whose source spins (the slot-seq push/pop wait loops) is modelled
as returning `none`: in a given interleaving it does not complete.  C++
`size_t`/`uint64_t` arithmetic is carried over to `Nat`; the bit-masking
`x & (Capacity - 1)` of the source is kept as `Nat.land` and bridged to
`% Capacity` under the power-of-two hypothesis enforced by the source's
`static_assert`s.  Nat subtraction is only used where the source values
make the C++ unsigned subtraction non-negative, except `u64sub`, which
models the wrapping `uint64_t` subtraction exactly.
-/

namespace Spsc

/-- State of `SPSCQueue<T, Capacity>` (src/spsc.h lines 62-284 and
src/spsc/spsc.h).  `head`/`cached_tail` are the producer record,
`tail`/`cached_head` the consumer record; all four are masked indices in
`[0, Capacity)`.  The buffer is the backing array. -/
structure State (V : Type) where
  head : Nat
  cached_tail : Nat
  tail : Nat
  cached_head : Nat
  buffer : List V
deriving Repr, DecidableEq

instance (V : Type) [Inhabited V] : Inhabited (State V) := ⟨⟨0, 0, 0, 0, []⟩⟩

/-- `nextIndex(idx) = (idx + 1) & (Capacity - 1)` (src/spsc.h line 213). -/
def nextIndex (N idx : Nat) : Nat := (idx + 1) &&& (N - 1)

/-- `nextIndex(idx, offset) = (idx + offset) & (Capacity - 1)`
(src/spsc.h line 216). -/
def nextIndexOfs (N idx offset : Nat) : Nat := (idx + offset) &&& (N - 1)

/-- `available_space(head, tail) = (Capacity + tail - head - 1) & (Capacity - 1)`
(src/spsc.h line 223).  For the masked indices (`head, tail < Capacity`)
the C++ unsigned arithmetic never wraps, so Nat subtraction is exact. -/
def available_space (N head tail : Nat) : Nat := (N + tail - head - 1) &&& (N - 1)

/-- A fresh queue: all indices zero (`ProducerStateImpl`/`ConsumerStateImpl`
initialisers), buffer of `Capacity` default-initialised cells. -/
def init (V : Type) (N : Nat) (v0 : V) : State V := ⟨0, 0, 0, 0, List.replicate N v0⟩

/-- `push` (src/spsc.h lines 79-100, `EnableCache` path; identically
src/spsc/spsc.h lines 97-125): load `head`, compute `next_head`; if it hits
`cached_tail`, refresh the cache from `tail` and re-test; on success store
the value at `buffer[head]` and publish `head := next_head`. -/
def push (N : Nat) (st : State V) (v : V) : Bool × State V :=
  let head := st.head
  let next_head := nextIndex N head
  if next_head = st.cached_tail then
    let t := st.tail
    if next_head = t then
      (false, { st with cached_tail := t })
    else
      (true, { st with cached_tail := t, buffer := st.buffer.set head v, head := next_head })
  else
    (true, { st with buffer := st.buffer.set head v, head := next_head })

/-- `pop` (src/spsc.h lines 102-121; src/spsc/spsc.h lines 152-169):
symmetric to `push`, swapping head/tail and using `cached_head`. -/
def pop [Inhabited V] (N : Nat) (st : State V) : Option V × State V :=
  let tail := st.tail
  if tail = st.cached_head then
    let h := st.head
    if tail = h then
      (none, { st with cached_head := h })
    else
      (some (st.buffer.getD tail default),
       { st with cached_head := h, tail := nextIndex N tail })
  else
    (some (st.buffer.getD tail default), { st with tail := nextIndex N tail })

/-- `memcpy(&dst[dstPos], &src[srcPos], n * sizeof(T))` on the list model:
copy `n` elements of `src` starting at `srcPos` into `dst` starting at
`dstPos`. -/
def memcpy [Inhabited V] (dst : List V) (dstPos : Nat) (src : List V) (srcPos n : Nat) :
    List V :=
  match n with
  | 0 => dst
  | k + 1 => memcpy (dst.set dstPos (src.getD srcPos default)) (dstPos + 1) src (srcPos + 1) k

/-- `push_bulk(data, count)` (src/spsc.h lines 123-159, `EnableCache` path;
src/spsc/spsc.h lines 171-219 with the `memcpy` bulk writer): estimate the
free space from `cached_tail`, refresh the cache when the estimate is short,
write `min(count, available)` elements — split in two `memcpy`s when the
span wraps the end of the array — and publish the advanced `head`. -/
def push_bulk [Inhabited V] (N : Nat) (st : State V) (data : List V) (count : Nat) :
    Nat × State V :=
  let head := st.head
  let available0 := available_space N head st.cached_tail
  let refresh := available0 < count
  let available := if refresh then available_space N head st.tail else available0
  let st1 := if refresh then { st with cached_tail := st.tail } else st
  let to_write := min count available
  if to_write = 0 then
    (0, st1)
  else
    let end_of_buffer := N - head
    let buf :=
      if to_write ≤ end_of_buffer then
        memcpy st1.buffer head data 0 to_write
      else
        memcpy (memcpy st1.buffer head data 0 end_of_buffer) 0 data end_of_buffer
          (to_write - end_of_buffer)
    (to_write, { st1 with buffer := buf, head := nextIndexOfs N head to_write })

/-- The contiguous read `buffer[pos .. pos+n)` performed by one `memcpy` of
`pop_bulk`, as the list of values it deposits. -/
def readRange [Inhabited V] (buf : List V) (pos n : Nat) : List V :=
  (List.range n).map (fun i => buf.getD (pos + i) default)

/-- `pop_bulk(data, count)` (src/spsc.h lines 161-195; src/spsc/spsc.h
lines 221-267): estimate the readable count from `cached_head` via
`available_space(tail, head + 1)`, refresh when short, read
`min(count, available)` elements (two spans when wrapping) and publish the
advanced `tail`.  Returns the values read. -/
def pop_bulk [Inhabited V] (N : Nat) (st : State V) (count : Nat) :
    List V × State V :=
  let tail := st.tail
  let available0 := available_space N tail (st.cached_head + 1)
  let refresh := available0 < count
  let available := if refresh then available_space N tail (st.head + 1) else available0
  let st1 := if refresh then { st with cached_head := st.head } else st
  let to_read := min count available
  if to_read = 0 then
    ([], st1)
  else
    let end_of_buffer := N - tail
    let out :=
      if to_read ≤ end_of_buffer then
        readRange st1.buffer tail to_read
      else
        readRange st1.buffer tail end_of_buffer ++
          readRange st1.buffer 0 (to_read - end_of_buffer)
    (out, { st1 with tail := nextIndexOfs N tail to_read })

/-- `empty()` (src/spsc.h lines 197-200): `head == tail`. -/
def emptyQ (st : State V) : Bool := st.head = st.tail

/-- `size()` (src/spsc.h lines 202-206). -/
def sizeQ (N : Nat) (st : State V) : Nat :=
  if st.tail ≤ st.head then st.head - st.tail else N - st.tail + st.head

/-- One sequential operation on the SPSC queue. -/
inductive Op (V : Type) where
  | push (v : V)
  | pop
  | pushBulk (data : List V) (count : Nat)
  | popBulk (count : Nat)

/-- Effect of one operation on the state. -/
def stepOp [Inhabited V] (N : Nat) (st : State V) : Op V → State V
  | .push v => (push N st v).2
  | .pop => (pop N st).2
  | .pushBulk d c => (push_bulk N st d c).2
  | .popBulk c => (pop_bulk N st c).2

/-- States reachable from a fresh queue by any sequence of operations. -/
inductive Reachable [Inhabited V] (N : Nat) (v0 : V) : State V → Prop where
  | init : Reachable N v0 (init V N v0)
  | step {st : State V} (op : Op V) : Reachable N v0 st → Reachable N v0 (stepOp N st op)

end Spsc

namespace Spsc

/-- The source masks with `& (Capacity - 1)` under a
`static_assert(Capacity ≥ 2 && power of two)`; under that assumption the
mask is reduction mod `Capacity`. -/
theorem land_mask {N m : Nat} (hN : N = 2 ^ m) (x : Nat) : x &&& (N - 1) = x % N := by
  subst hN; exact Nat.and_pow_two_sub_one_eq_mod x m

/-- Splitting a single wrap-around of the modulus. -/
theorem mod_two_cases {x N : Nat} (h0 : 0 < N) (h : x < 2 * N) :
    x % N = if x < N then x else x - N := by
  split
  · exact Nat.mod_eq_of_lt (by assumption)
  · rw [Nat.mod_eq_sub_mod (by omega), Nat.mod_eq_of_lt (by omega)]

/-- Cyclic distance from `b` forward to `a` on the ring of size `N`:
the number of cells from index `b` up to index `a`. -/
def dist (N a b : Nat) : Nat := (N + a - b) % N

theorem dist_def {N a b : Nat} (ha : a < N) (hb : b < N) :
    dist N a b = if b ≤ a then a - b else N + a - b := by
  have h0 : 0 < N := by omega
  unfold dist
  rw [mod_two_cases h0 (by omega)]
  split <;> split <;> omega

theorem dist_lt {N a b : Nat} (h0 : 0 < N) : dist N a b < N := Nat.mod_lt _ h0

/-- The free-space formula of the source, rewritten through the mask. -/
theorem available_space_eq {N m : Nat} (hN : N = 2 ^ m) (head tail : Nat)
    (hh : head < N) (ht : tail < N) :
    available_space N head tail = N - 1 - dist N head tail := by
  have h0 : 0 < N := by subst hN; exact Nat.pos_pow_of_pos m (by omega)
  unfold available_space
  rw [land_mask hN, dist_def hh ht, mod_two_cases h0 (by omega)]
  split <;> split <;> omega

/-- `available_space(tail, head + 1)` as used by the pop side equals the
cyclic distance `tail → head`, i.e. the number of readable elements. -/
theorem available_space_succ_eq {N m : Nat} (hN : N = 2 ^ m) (tail head : Nat)
    (hh : head < N) (ht : tail < N) :
    available_space N tail (head + 1) = dist N head tail := by
  have h0 : 0 < N := by subst hN; exact Nat.pos_pow_of_pos m (by omega)
  unfold available_space
  rw [land_mask hN, dist_def hh ht, mod_two_cases h0 (by omega)]
  split <;> split <;> omega

theorem dist_eq_zero_iff {N a b : Nat} (ha : a < N) (hb : b < N) :
    dist N a b = 0 ↔ a = b := by
  rw [dist_def ha hb]; split <;> omega

theorem succ_mod {N x : Nat} (hx : x < N) :
    (x + 1) % N = if x + 1 = N then 0 else x + 1 := by
  have h0 : 0 < N := by omega
  rw [mod_two_cases h0 (by omega)]; split <;> split <;> omega

theorem dist_add_left {N a b k : Nat} (ha : a < N) (hb : b < N)
    (h : dist N a b + k ≤ N - 1) : dist N ((a + k) % N) b = dist N a b + k := by
  have h0 : 0 < N := by omega
  rw [dist_def ha hb] at h
  have hk : k < N := by split_ifs at h <;> omega
  rw [mod_two_cases h0 (by omega), dist_def ha hb]
  rcases Nat.lt_or_ge (a + k) N with hc | hc
  · rw [if_pos hc, dist_def hc hb]
    split_ifs at h ⊢ <;> omega
  · rw [if_neg (by omega), dist_def (show a + k - N < N by omega) hb]
    split_ifs at h ⊢ <;> omega

theorem dist_add_right {N a b k : Nat} (ha : a < N) (hb : b < N)
    (h : k ≤ dist N a b) : dist N a ((b + k) % N) = dist N a b - k := by
  have h0 : 0 < N := by omega
  have hk : k < N := Nat.lt_of_le_of_lt h (dist_lt h0)
  rw [dist_def ha hb] at h
  rw [mod_two_cases h0 (by omega), dist_def ha hb]
  rcases Nat.lt_or_ge (b + k) N with hc | hc
  · rw [if_pos hc, dist_def ha hc]
    split_ifs at h ⊢ <;> omega
  · rw [if_neg (by omega), dist_def ha (show b + k - N < N by omega)]
    split_ifs at h ⊢ <;> omega

theorem dist_succ_left {N a b : Nat} (ha : a < N) (hb : b < N)
    (h : dist N a b < N - 1) : dist N ((a + 1) % N) b = dist N a b + 1 :=
  dist_add_left ha hb (by omega)

theorem dist_succ_right {N a b : Nat} (ha : a < N) (hb : b < N)
    (h : 1 ≤ dist N a b) : dist N a ((b + 1) % N) = dist N a b - 1 :=
  dist_add_right ha hb h

/-- Well-formedness of a sequential SPSC state: masked indices are in
range, the buffer has the ring's size, the producer's cached view of the
consumer index never overstates the free space, and the consumer's cached
view of the producer index never overstates the readable count. -/
def WF (N : Nat) (st : State V) : Prop :=
  st.head < N ∧ st.tail < N ∧ st.cached_tail < N ∧ st.cached_head < N ∧
  st.buffer.length = N ∧
  dist N st.head st.tail ≤ dist N st.head st.cached_tail ∧
  dist N st.cached_head st.tail ≤ dist N st.head st.tail

theorem init_WF {V : Type} {N m : Nat} (hN : N = 2 ^ m) (v0 : V) :
    WF N (init V N v0) := by
  have h0 : 0 < N := by subst hN; exact Nat.pos_pow_of_pos m (by omega)
  refine ⟨h0, h0, h0, h0, by simp [init], ?_, ?_⟩ <;> simp [init, dist]

end Spsc

namespace Spsc

/-- `dist a b = N - 1` precisely when `b` is the successor index of `a`:
the ring is full when the producer's next slot is the consumer index. -/
theorem dist_pred_iff {N a b : Nat} (ha : a < N) (hb : b < N) :
    dist N a b = N - 1 ↔ b = (a + 1) % N := by
  rw [succ_mod ha, dist_def ha hb]
  split_ifs <;> omega

theorem memcpy_length [Inhabited V] (dst : List V) (dstPos : Nat) (src : List V)
    (srcPos n : Nat) : (memcpy dst dstPos src srcPos n).length = dst.length := by
  induction n generalizing dst dstPos srcPos with
  | zero => rfl
  | succ k ih => rw [memcpy, ih, List.length_set]


theorem push_WF {V : Type} {N m : Nat} (hN : N = 2 ^ m) (st : State V) (v : V)
    (hWF : WF N st) : WF N (push N st v).2 := by
  obtain ⟨h, ct, t, ch, buf⟩ := st
  obtain ⟨hh, ht, hct, hch, hlen, hprod, hcons⟩ := hWF
  simp only at hh ht hct hch hlen hprod hcons
  have h0 : 0 < N := by omega
  simp only [push, nextIndex, land_mask hN]
  by_cases hc : (h + 1) % N = ct
  · simp only [if_pos hc]
    by_cases hc2 : (h + 1) % N = t
    · simp only [if_pos hc2]
      exact ⟨hh, ht, ht, hch, hlen, le_refl _, hcons⟩
    · simp only [if_neg hc2]
      have hlt : dist N h t < N - 1 := by
        have := dist_lt (N := N) (a := h) (b := t) h0
        rcases Nat.lt_or_ge (dist N h t) (N - 1) with hx | hx
        · exact hx
        · exact absurd ((dist_pred_iff hh ht).mp (by omega)).symm hc2
      have hstep := dist_succ_left hh ht hlt
      refine ⟨Nat.mod_lt _ h0, ht, ht, hch, by simpa [List.length_set] using hlen, ?_, ?_⟩
      · show dist N ((h + 1) % N) t ≤ dist N ((h + 1) % N) t
        exact le_refl _
      · show dist N ch t ≤ dist N ((h + 1) % N) t
        rw [hstep]; omega
  · simp only [if_neg hc]
    have hltc : dist N h ct < N - 1 := by
      have := dist_lt (N := N) (a := h) (b := ct) h0
      rcases Nat.lt_or_ge (dist N h ct) (N - 1) with hx | hx
      · exact hx
      · exact absurd ((dist_pred_iff hh hct).mp (by omega)).symm hc
    have hlt : dist N h t < N - 1 := Nat.lt_of_le_of_lt hprod hltc
    have hstep := dist_succ_left hh ht hlt
    have hstepc := dist_succ_left hh hct hltc
    refine ⟨Nat.mod_lt _ h0, ht, hct, hch, by simpa [List.length_set] using hlen, ?_, ?_⟩
    · show dist N ((h + 1) % N) t ≤ dist N ((h + 1) % N) ct
      rw [hstep, hstepc]; omega
    · show dist N ch t ≤ dist N ((h + 1) % N) t
      rw [hstep]; omega

theorem pop_WF {V : Type} [Inhabited V] {N m : Nat} (hN : N = 2 ^ m) (st : State V)
    (hWF : WF N st) : WF N (pop N st).2 := by
  obtain ⟨h, ct, t, ch, buf⟩ := st
  obtain ⟨hh, ht, hct, hch, hlen, hprod, hcons⟩ := hWF
  simp only at hh ht hct hch hlen hprod hcons
  have h0 : 0 < N := by omega
  simp only [pop, nextIndex, land_mask hN]
  by_cases hc : t = ch
  · simp only [if_pos hc]
    by_cases hc2 : t = h
    · simp only [if_pos hc2]
      exact ⟨hh, ht, hct, hh, hlen, hprod, by subst hc2; exact le_refl _⟩
    · simp only [if_neg hc2]
      have hpos : 1 ≤ dist N h t := by
        rcases Nat.eq_zero_or_pos (dist N h t) with hx | hx
        · exact absurd ((dist_eq_zero_iff hh ht).mp hx) (fun he => hc2 he.symm)
        · exact hx
      have hstep := dist_succ_right hh ht hpos
      refine ⟨hh, Nat.mod_lt _ h0, hct, hh, hlen, ?_, ?_⟩
      · show dist N h ((t + 1) % N) ≤ dist N h ct
        rw [hstep]; omega
      · show dist N h ((t + 1) % N) ≤ dist N h ((t + 1) % N)
        exact le_refl _
  · simp only [if_neg hc]
    have hchpos : 1 ≤ dist N ch t := by
      rcases Nat.eq_zero_or_pos (dist N ch t) with hx | hx
      · exact absurd ((dist_eq_zero_iff hch ht).mp hx).symm hc
      · exact hx
    have hpos : 1 ≤ dist N h t := Nat.le_trans hchpos hcons
    have hstep := dist_succ_right hh ht hpos
    have hstepc := dist_succ_right hch ht hchpos
    refine ⟨hh, Nat.mod_lt _ h0, hct, hch, hlen, ?_, ?_⟩
    · show dist N h ((t + 1) % N) ≤ dist N h ct
      rw [hstep]; omega
    · show dist N ch ((t + 1) % N) ≤ dist N h ((t + 1) % N)
      rw [hstep, hstepc]; omega

theorem push_bulk_WF {V : Type} [Inhabited V] {N m : Nat} (hN : N = 2 ^ m)
    (st : State V) (data : List V) (count : Nat) (hWF : WF N st) :
    WF N (push_bulk N st data count).2 := by
  obtain ⟨h, ct, t, ch, buf⟩ := st
  obtain ⟨hh, ht, hct, hch, hlen, hprod, hcons⟩ := hWF
  simp only at hh ht hct hch hlen hprod hcons
  have h0 : 0 < N := by omega
  have hdt := dist_lt (N := N) (a := h) (b := t) h0
  have hdc := dist_lt (N := N) (a := h) (b := ct) h0
  simp only [push_bulk, nextIndexOfs, land_mask hN]
  rw [available_space_eq hN h ct hh hct, available_space_eq hN h t hh ht]
  by_cases hr : N - 1 - dist N h ct < count
  · simp only [if_pos hr]
    by_cases hz : min count (N - 1 - dist N h t) = 0
    · simp only [if_pos hz]
      exact ⟨hh, ht, ht, hch, hlen, le_refl _, hcons⟩
    · simp only [if_neg hz]
      set w := min count (N - 1 - dist N h t) with hw
      have hwd : dist N h t + w ≤ N - 1 := by omega
      have hstep := dist_add_left hh ht hwd
      refine ⟨Nat.mod_lt _ h0, ht, ht, hch, ?_, ?_, ?_⟩
      · show (if _ then _ else _ : List V).length = N
        split <;> simp [memcpy_length, hlen]
      · show dist N ((h + w) % N) t ≤ dist N ((h + w) % N) t
        exact le_refl _
      · show dist N ch t ≤ dist N ((h + w) % N) t
        rw [hstep]; omega
  · simp only [if_neg hr]
    by_cases hz : min count (N - 1 - dist N h ct) = 0
    · simp only [if_pos hz]
      exact ⟨hh, ht, hct, hch, hlen, hprod, hcons⟩
    · simp only [if_neg hz]
      set w := min count (N - 1 - dist N h ct) with hw
      have hwc : dist N h ct + w ≤ N - 1 := by omega
      have hwd : dist N h t + w ≤ N - 1 := by omega
      have hstep := dist_add_left hh ht hwd
      have hstepc := dist_add_left hh hct hwc
      refine ⟨Nat.mod_lt _ h0, ht, hct, hch, ?_, ?_, ?_⟩
      · show (if _ then _ else _ : List V).length = N
        split <;> simp [memcpy_length, hlen]
      · show dist N ((h + w) % N) t ≤ dist N ((h + w) % N) ct
        rw [hstep, hstepc]; omega
      · show dist N ch t ≤ dist N ((h + w) % N) t
        rw [hstep]; omega

theorem pop_bulk_WF {V : Type} [Inhabited V] {N m : Nat} (hN : N = 2 ^ m)
    (st : State V) (count : Nat) (hWF : WF N st) :
    WF N (pop_bulk N st count).2 := by
  obtain ⟨h, ct, t, ch, buf⟩ := st
  obtain ⟨hh, ht, hct, hch, hlen, hprod, hcons⟩ := hWF
  simp only at hh ht hct hch hlen hprod hcons
  have h0 : 0 < N := by omega
  have hdt := dist_lt (N := N) (a := h) (b := t) h0
  have hdh := dist_lt (N := N) (a := ch) (b := t) h0
  simp only [pop_bulk, nextIndexOfs, land_mask hN]
  rw [available_space_succ_eq hN t ch hch ht, available_space_succ_eq hN t h hh ht]
  by_cases hr : dist N ch t < count
  · simp only [if_pos hr]
    by_cases hz : min count (dist N h t) = 0
    · simp only [if_pos hz]
      exact ⟨hh, ht, hct, hh, hlen, hprod, le_refl _⟩
    · simp only [if_neg hz]
      set w := min count (dist N h t) with hw
      have hwd : w ≤ dist N h t := by omega
      have hstep := dist_add_right hh ht hwd
      refine ⟨hh, Nat.mod_lt _ h0, hct, hh, hlen, ?_, ?_⟩
      · show dist N h ((t + w) % N) ≤ dist N h ct
        rw [hstep]; omega
      · show dist N h ((t + w) % N) ≤ dist N h ((t + w) % N)
        exact le_refl _
  · simp only [if_neg hr]
    by_cases hz : min count (dist N ch t) = 0
    · simp only [if_pos hz]
      exact ⟨hh, ht, hct, hch, hlen, hprod, hcons⟩
    · simp only [if_neg hz]
      set w := min count (dist N ch t) with hw
      have hwc : w ≤ dist N ch t := by omega
      have hwd : w ≤ dist N h t := by omega
      have hstep := dist_add_right hh ht hwd
      have hstepc := dist_add_right hch ht hwc
      refine ⟨hh, Nat.mod_lt _ h0, hct, hch, hlen, ?_, ?_⟩
      · show dist N h ((t + w) % N) ≤ dist N h ct
        rw [hstep]; omega
      · show dist N ch ((t + w) % N) ≤ dist N h ((t + w) % N)
        rw [hstep, hstepc]; omega

/-- Every reachable sequential SPSC state is well-formed. -/
theorem reachable_WF {V : Type} [Inhabited V] {N m : Nat} (hN : N = 2 ^ m) (v0 : V)
    (st : State V) (hr : Reachable N v0 st) : WF N st := by
  induction hr with
  | init => exact init_WF hN v0
  | step op _ ih =>
    cases op with
    | push v => exact push_WF hN _ v ih
    | pop => exact pop_WF hN _ ih
    | pushBulk d c => exact push_bulk_WF hN _ d c ih
    | popBulk c => exact pop_bulk_WF hN _ c ih

end Spsc

namespace Spsc

theorem getD_set_ne {V : Type} (l : List V) (i j : Nat) (v d : V) (hij : i ≠ j) :
    (l.set i v).getD j d = l.getD j d := by
  simp [List.getD_eq_getElem?_getD, List.getElem?_set_ne hij]

theorem getD_set_self {V : Type} (l : List V) (i : Nat) (v d : V) (hi : i < l.length) :
    (l.set i v).getD i d = v := by
  simp [List.getD_eq_getElem?_getD, List.getElem?_set_self hi]

theorem memcpy_getD_out {V : Type} [Inhabited V] (dst : List V) (p : Nat) (src : List V)
    (s n j : Nat) (hj : ∀ i < n, p + i ≠ j) :
    (memcpy dst p src s n).getD j default = dst.getD j default := by
  induction n generalizing dst p s with
  | zero => rfl
  | succ k ih =>
    rw [memcpy, ih _ _ _ (fun i hi => by have := hj (i + 1) (by omega); omega)]
    exact getD_set_ne _ _ _ _ _ (by have := hj 0 (by omega); omega)

theorem memcpy_getD_in {V : Type} [Inhabited V] (dst : List V) (p : Nat) (src : List V)
    (s n i : Nat) (hi : i < n) (hp : p + n ≤ dst.length) :
    (memcpy dst p src s n).getD (p + i) default = src.getD (s + i) default := by
  induction n generalizing dst p s i with
  | zero => omega
  | succ k ih =>
    rw [memcpy]
    cases i with
    | zero =>
      rw [Nat.add_zero, memcpy_getD_out _ _ _ _ _ _ (fun j hj => by omega)]
      exact getD_set_self _ _ _ _ (by omega)
    | succ i' =>
      have := ih (dst.set p (src.getD s default)) (p + 1) (s + 1) i' (by omega)
        (by simp [List.length_set]; omega)
      rw [show p + (i' + 1) = p + 1 + i' by omega, this,
        show s + 1 + i' = s + (i' + 1) by omega]

/-- The queue is full exactly when `size = Capacity - 1`, i.e. the cyclic
distance from `tail` to `head` is `Capacity - 1`. -/
def isFull (N : Nat) (st : State V) : Prop := dist N st.head st.tail = N - 1

/-- A push on a full, reachable (well-formed) SPSC queue returns `false`
and leaves the entire state — indices, caches and buffer — unchanged.
(src/spsc.h lines 79-100: the fast-path test hits, the refresh re-reads
`tail`, the re-test hits again, and the already-coherent `cached_tail` is
rewritten with its own value.) -/
theorem push_full {V : Type} {N m : Nat} (hN : N = 2 ^ m) (st : State V) (v : V)
    (hWF : WF N st) (hfull : isFull N st) : push N st v = (false, st) := by
  obtain ⟨h, ct, t, ch, buf⟩ := st
  obtain ⟨hh, ht, hct, hch, hlen, hprod, hcons⟩ := hWF
  simp only at hh ht hct hch hlen hprod hcons
  unfold isFull at hfull
  simp only at hfull
  have h0 : 0 < N := by omega
  have hteq : t = (h + 1) % N := (dist_pred_iff hh ht).mp hfull
  have hcteq : ct = (h + 1) % N := by
    have := dist_lt (N := N) (a := h) (b := ct) h0
    exact (dist_pred_iff hh hct).mp (by omega)
  simp only [push, nextIndex, land_mask hN, if_pos hcteq.symm, if_pos hteq.symm]
  rw [show ct = t from hcteq.trans hteq.symm]

/-- A pop on an empty, reachable (well-formed) SPSC queue returns `false`
(no value) and leaves the state unchanged (src/spsc.h lines 102-121). -/
theorem pop_empty {V : Type} [Inhabited V] {N : Nat} (st : State V)
    (hWF : WF N st) (he : st.head = st.tail) : pop N st = (none, st) := by
  obtain ⟨h, ct, t, ch, buf⟩ := st
  obtain ⟨hh, ht, hct, hch, hlen, hprod, hcons⟩ := hWF
  simp only at hh ht hct hch hlen hprod hcons he
  have hzero : dist N h t = 0 := by rw [he, dist_def ht ht]; simp
  have hch_t : ch = t := (dist_eq_zero_iff hch ht).mp (by omega)
  simp only [pop, if_pos hch_t.symm, if_pos he.symm]
  rw [show ch = h from hch_t.trans he.symm]

/-- A pop on a non-empty SPSC queue returns the value at `tail`. -/
theorem pop_nonempty {V : Type} [Inhabited V] {N : Nat} (st : State V)
    (hne : st.head ≠ st.tail) :
    (pop N st).1 = some (st.buffer.getD st.tail default) := by
  obtain ⟨h, ct, t, ch, buf⟩ := st
  simp only at hne
  simp only [pop]
  by_cases hc : t = ch
  · simp only [if_pos hc, if_neg (Ne.symm hne)]
  · simp only [if_neg hc]

end Spsc

namespace Spsc

/-- C4. `push_bulk(src, k)` on a reachable (well-formed) SPSC state copies
exactly `min(k, current free space)` elements — taken in order from the
front of `src`, split into two copies when the span wraps the end of the
array — returns that count (which may be `0` or less than `k`), leaves
`tail`/`cached_head` alone, advances `head` by the count, and does not
touch any ring cell outside the written span. -/
theorem push_bulk_copies_min_free {V : Type} [Inhabited V] {N m : Nat}
    (hN : N = 2 ^ m) (st : State V) (data : List V) (count : Nat)
    (hWF : WF N st) :
    (push_bulk N st data count).1 = min count (available_space N st.head st.tail) ∧
    (push_bulk N st data count).2.head = (st.head + (push_bulk N st data count).1) % N ∧
    (push_bulk N st data count).2.tail = st.tail ∧
    (push_bulk N st data count).2.cached_head = st.cached_head ∧
    (push_bulk N st data count).2.buffer.length = N ∧
    (∀ i, i < (push_bulk N st data count).1 →
      (push_bulk N st data count).2.buffer.getD ((st.head + i) % N) default =
        data.getD i default) ∧
    (∀ j, j < N → (∀ i, i < (push_bulk N st data count).1 → (st.head + i) % N ≠ j) →
      (push_bulk N st data count).2.buffer.getD j default = st.buffer.getD j default) := by
  obtain ⟨h, ct, t, ch, buf⟩ := st
  obtain ⟨hh, ht, hct, hch, hlen, hprod, hcons⟩ := hWF
  simp only at hh ht hct hch hlen hprod hcons
  have h0 : 0 < N := by omega
  have hdt := dist_lt (N := N) (a := h) (b := t) h0
  have hdc := dist_lt (N := N) (a := h) (b := ct) h0
  simp only [push_bulk, nextIndexOfs, land_mask hN]
  rw [available_space_eq hN h ct hh hct, available_space_eq hN h t hh ht]
  -- generic content lemma for the written buffer, shared by both branches
  have hcontent : ∀ w : Nat, w ≤ N - 1 - dist N h t → ∀ b0 : List V, b0.length = N →
      (let bw := if w ≤ N - h then memcpy b0 h data 0 w
                 else memcpy (memcpy b0 h data 0 (N - h)) 0 data (N - h) (w - (N - h))
       (∀ i, i < w → bw.getD ((h + i) % N) default = data.getD i default) ∧
       (∀ j, j < N → (∀ i, i < w → (h + i) % N ≠ j) →
         bw.getD j default = b0.getD j default) ∧ bw.length = N) := by
    intro w hwle b0 hb0
    by_cases hsplit : w ≤ N - h
    · simp only [if_pos hsplit]
      refine ⟨?_, ?_, by rw [memcpy_length, hb0]⟩
      · intro i hi
        have hin : h + i < N := by omega
        rw [Nat.mod_eq_of_lt hin]
        have := memcpy_getD_in b0 h data 0 w i hi (by omega)
        simpa using this
      · intro j _ hj
        exact memcpy_getD_out b0 h data 0 w j
          (fun i hi => by have := hj i hi; rwa [Nat.mod_eq_of_lt (by omega)] at this)
    · simp only [if_neg hsplit]
      have hpart2 : w - (N - h) < h := by omega
      refine ⟨?_, ?_, by rw [memcpy_length, memcpy_length, hb0]⟩
      · intro i hi
        by_cases hfirst : i < N - h
        · have hin : h + i < N := by omega
          rw [Nat.mod_eq_of_lt hin]
          rw [memcpy_getD_out _ _ _ _ _ _ (fun i' hi' => by omega)]
          have := memcpy_getD_in b0 h data 0 (N - h) i hfirst (by omega)
          simpa using this
        · have hin : (h + i) % N = i - (N - h) := by
            rw [mod_two_cases h0 (by omega)]
            split <;> omega
          rw [hin]
          have := memcpy_getD_in (memcpy b0 h data 0 (N - h)) 0 data (N - h)
            (w - (N - h)) (i - (N - h)) (by omega)
            (by rw [memcpy_length, hb0]; omega)
          rw [show (0 : Nat) + (i - (N - h)) = i - (N - h) by omega] at this
          rw [this, show N - h + (i - (N - h)) = i by omega]
      · intro j _ hj
        have hj1 : ∀ i', i' < w - (N - h) → (0 : Nat) + i' ≠ j := by
          intro i' hi'
          have := hj (i' + (N - h)) (by omega)
          rw [mod_two_cases h0 (by omega)] at this
          rw [if_neg (by omega)] at this
          omega
        have hj2 : ∀ i', i' < N - h → h + i' ≠ j := by
          intro i' hi'
          have := hj i' (by omega)
          rwa [Nat.mod_eq_of_lt (by omega)] at this
        rw [memcpy_getD_out _ _ _ _ _ _ hj1, memcpy_getD_out _ _ _ _ _ _ hj2]
  by_cases hr : N - 1 - dist N h ct < count
  · rw [if_pos hr, if_pos hr]
    set w := min count (N - 1 - dist N h t) with hw
    by_cases hz : w = 0
    · rw [if_pos hz]
      refine ⟨?_, ?_, rfl, rfl, hlen, ?_, ?_⟩
      · show (0 : Nat) = min count (N - 1 - dist N h t)
        omega
      · show h = (h + 0) % N
        rw [Nat.add_zero, Nat.mod_eq_of_lt hh]
      · intro i hi
        have hi0 : i < 0 := hi
        omega
      · intro j _ _
        rfl
    · rw [if_neg hz]
      have hcont := hcontent w (by omega) buf hlen
      simp only at hcont
      refine ⟨rfl, rfl, rfl, rfl, hcont.2.2, ?_, ?_⟩
      · intro i hi
        exact hcont.1 i hi
      · intro j hjn hj
        exact hcont.2.1 j hjn hj
  · rw [if_neg hr, if_neg hr]
    have hmin : min count (N - 1 - dist N h ct) = min count (N - 1 - dist N h t) := by omega
    set w := min count (N - 1 - dist N h ct) with hw
    by_cases hz : w = 0
    · rw [if_pos hz]
      refine ⟨?_, ?_, rfl, rfl, hlen, ?_, ?_⟩
      · show (0 : Nat) = min count (N - 1 - dist N h t)
        omega
      · show h = (h + 0) % N
        rw [Nat.add_zero, Nat.mod_eq_of_lt hh]
      · intro i hi
        have hi0 : i < 0 := hi
        omega
      · intro j _ _
        rfl
    · rw [if_neg hz]
      have hcont := hcontent w (by omega) buf hlen
      simp only at hcont
      refine ⟨by omega, rfl, rfl, rfl, hcont.2.2, ?_, ?_⟩
      · intro i hi
        exact hcont.1 i hi
      · intro j hjn hj
        exact hcont.2.1 j hjn hj
end Spsc


namespace Spsc

/-- A sequence of single pushes, returning each push's boolean result. -/
def pushList [Inhabited V] (N : Nat) (st : State V) : List V → List Bool × State V
  | [] => ([], st)
  | v :: vs =>
    let r := push N st v
    let rest := pushList N r.2 vs
    (r.1 :: rest.1, rest.2)

/-- A sequence of `n` single pops, returning each pop's result. -/
def popN [Inhabited V] (N : Nat) (st : State V) : Nat → List (Option V) × State V
  | 0 => ([], st)
  | k + 1 =>
    let r := pop N st
    let rest := popN N r.2 k
    (r.1 :: rest.1, rest.2)

theorem memcpy_cons_src {V : Type} [Inhabited V] (dst : List V) (p : Nat) (v : V)
    (src : List V) (s n : Nat) :
    memcpy dst p (v :: src) (s + 1) n = memcpy dst p src s n := by
  induction n generalizing dst p s with
  | zero => rfl
  | succ k ih => rw [memcpy, memcpy, List.getD_cons_succ, ih]

theorem map_range_getD {V : Type} [Inhabited V] (l : List V) :
    (List.range l.length).map (fun i => l.getD i default) = l := by
  induction l with
  | nil => rfl
  | cons a t ih =>
    rw [List.length_cons, List.range_succ_eq_map, List.map_cons, List.map_map]
    simp only [List.getD_cons_zero, Function.comp]
    congr 1

/-- Running `vs.length` pushes from a state with `head = j`, fresh consumer
side and coherent caches: all succeed and fill `buffer[j .. j+|vs|)`. -/
theorem pushList_run {V : Type} [Inhabited V] {N m : Nat} (hN : N = 2 ^ m)
    (vs : List V) (j : Nat) (buf : List V) (hbuf : buf.length = N)
    (hj : j + vs.length ≤ N - 1) :
    pushList N (⟨j, 0, 0, 0, buf⟩ : State V) vs =
      (List.replicate vs.length true,
       ⟨j + vs.length, 0, 0, 0, memcpy buf j vs 0 vs.length⟩) := by
  induction vs generalizing j buf with
  | nil => rfl
  | cons v rest ih =>
    rw [pushList]
    have hlt : j + 1 < N := by
      simp only [List.length_cons] at hj
      omega
    have hstep : push N (⟨j, 0, 0, 0, buf⟩ : State V) v =
        (true, ⟨j + 1, 0, 0, 0, buf.set j v⟩) := by
      simp only [push, nextIndex, land_mask hN, Nat.mod_eq_of_lt hlt]
      rw [if_neg (show ¬(j + 1 = 0) by omega)]
    rw [hstep]
    have hrec := ih (j + 1) (buf.set j v)
      (by rw [List.length_set, hbuf]) (by simp only [List.length_cons] at hj; omega)
    simp only at hrec ⊢
    rw [hrec]
    have hm1 : memcpy buf j (v :: rest) 0 (rest.length + 1) =
        memcpy (buf.set j v) (j + 1) rest 0 rest.length := by
      rw [memcpy]
      simp only [List.getD_cons_zero]
      rw [memcpy_cons_src]
    rw [List.length_cons, hm1, List.replicate_succ]
    rw [show j + 1 + rest.length = j + (rest.length + 1) by omega]

/-- After filling the ring (`head = N - 1`), a further push fails and
changes nothing. -/
theorem push_on_filled {V : Type} {N m : Nat} (hN : N = 2 ^ m) (buf : List V) (w : V) :
    push N (⟨N - 1, 0, 0, 0, buf⟩ : State V) w = (false, ⟨N - 1, 0, 0, 0, buf⟩) := by
  have h0 : 0 < N := by subst hN; exact Nat.pos_pow_of_pos m (by omega)
  simp only [push, nextIndex, land_mask hN]
  rw [show N - 1 + 1 = N by omega, Nat.mod_self]
  rfl

/-- Draining pops: from `⟨N-1, 0, j, N-1, buf⟩` with `1 ≤ j`, `k` pops pop
`buffer[j], …, buffer[j+k-1]` in order (no wrap occurs: `j + k ≤ N - 1`). -/
theorem popN_run {V : Type} [Inhabited V] {N m : Nat} (hN : N = 2 ^ m)
    (k j : Nat) (buf : List V) (hj : 1 ≤ j) (hjk : j + k ≤ N - 1) :
    popN N (⟨N - 1, 0, j, N - 1, buf⟩ : State V) k =
      ((List.range k).map (fun i => some (buf.getD (j + i) default)),
       ⟨N - 1, 0, j + k, N - 1, buf⟩) := by
  induction k generalizing j with
  | zero => rfl
  | succ k' ih =>
    rw [popN]
    have hstep : pop N (⟨N - 1, 0, j, N - 1, buf⟩ : State V) =
        (some (buf.getD j default), ⟨N - 1, 0, j + 1, N - 1, buf⟩) := by
      simp only [pop, nextIndex, land_mask hN]
      rw [if_neg (by omega), Nat.mod_eq_of_lt (by omega)]
    rw [hstep]
    simp only
    rw [ih (j + 1) (by omega) (by omega)]
    rw [List.range_succ_eq_map, List.map_cons, List.map_map]
    refine Prod.ext ?_ ?_
    · simp only
      congr 1
      refine List.map_congr_left (fun i _ => ?_)
      show some (buf.getD (j + 1 + i) default) = some (buf.getD (j + (i + 1)) default)
      rw [show j + 1 + i = j + (i + 1) by omega]
    · simp only
      rw [show j + 1 + k' = j + (k' + 1) by omega]

/-- Draining a just-filled ring: `N - 1` pops return
`buffer[0], …, buffer[N-2]` in order (the first pop refreshes the
consumer's cached view of `head`). -/
theorem popN_from_filled {V : Type} [Inhabited V] {N m : Nat} (hN : N = 2 ^ m)
    (h2 : 2 ≤ N) (buf : List V) :
    popN N (⟨N - 1, 0, 0, 0, buf⟩ : State V) (N - 1) =
      ((List.range (N - 1)).map (fun i => some (buf.getD i default)),
       ⟨N - 1, 0, N - 1, N - 1, buf⟩) := by
  obtain ⟨k, hk⟩ : ∃ k, N - 1 = k + 1 := ⟨N - 2, by omega⟩
  have hfirst : pop N (⟨N - 1, 0, 0, 0, buf⟩ : State V) =
      (some (buf.getD 0 default), ⟨N - 1, 0, 1, N - 1, buf⟩) := by
    simp only [pop, nextIndex, land_mask hN, if_true]
    rw [if_neg (by omega), Nat.mod_eq_of_lt (by omega)]
  have hrest := popN_run hN k 1 buf (by omega) (by omega)
  rw [hk] at hfirst hrest ⊢
  rw [popN, hfirst]
  simp only
  rw [hrest]
  rw [List.range_succ_eq_map, List.map_cons, List.map_map]
  refine Prod.ext ?_ ?_
  · simp only
    congr 1
    refine List.map_congr_left (fun i _ => ?_)
    show some (buf.getD (1 + i) default) = some (buf.getD (i + 1) default)
    rw [Nat.add_comm]
  · simp only
    rw [show (1 : Nat) + k = k + 1 by omega]

/-- The empty-queue pop at the end of the drain: fails, changes nothing. -/
theorem pop_on_drained {V : Type} [Inhabited V] {N : Nat} (buf : List V) :
    pop N (⟨N - 1, 0, N - 1, N - 1, buf⟩ : State V) =
      (none, ⟨N - 1, 0, N - 1, N - 1, buf⟩) := by
  simp [pop]

/-- C3. SPSC fill/drain: on an `N`-cell ring from empty, `N - 1` pushes all
succeed, the `N`-th push returns `false` without modifying the state, the
following `N - 1` pops return exactly the pushed values in push order, and
one further pop returns `false`. -/
theorem spsc_fill_then_drain {V : Type} [Inhabited V] {N m : Nat}
    (hN : N = 2 ^ m) (hm : 1 ≤ m) (v0 w : V) (vs : List V)
    (hlen : vs.length = N - 1) :
    (pushList N (init V N v0) vs).1 = List.replicate (N - 1) true ∧
    (push N (pushList N (init V N v0) vs).2 w).1 = false ∧
    (push N (pushList N (init V N v0) vs).2 w).2 = (pushList N (init V N v0) vs).2 ∧
    (popN N (pushList N (init V N v0) vs).2 (N - 1)).1 = vs.map some ∧
    (pop N (popN N (pushList N (init V N v0) vs).2 (N - 1)).2).1 = none := by
  have h0 : 0 < N := by subst hN; exact Nat.pos_pow_of_pos m (by omega)
  have h2 : 2 ≤ N := by
    subst hN
    calc 2 = 2 ^ 1 := by norm_num
    _ ≤ 2 ^ m := Nat.pow_le_pow_right (by omega) hm
  have hrun := pushList_run hN vs 0 (List.replicate N v0)
    (List.length_replicate _ _) (by omega)
  have hinit : init V N v0 = (⟨0, 0, 0, 0, List.replicate N v0⟩ : State V) := rfl
  rw [hinit, hrun, hlen]
  set bufW := memcpy (List.replicate N v0) 0 vs 0 (N - 1) with hbw
  have hget : ∀ i, i < N - 1 → bufW.getD i default = vs.getD i default := by
    intro i hi
    have := memcpy_getD_in (List.replicate N v0) 0 vs 0 (N - 1) i hi
      (by rw [List.length_replicate]; omega)
    simpa using this
  have hzero_add : (0 : Nat) + (N - 1) = N - 1 := by omega
  rw [hzero_add]
  refine ⟨rfl, ?_, ?_, ?_, ?_⟩
  · rw [push_on_filled hN]
  · rw [push_on_filled hN]
  · rw [popN_from_filled hN h2]
    show (List.range (N - 1)).map (fun i => some (bufW.getD i default)) = vs.map some
    have h1 : (List.range (N - 1)).map (fun i => some (bufW.getD i default)) =
        (List.range (N - 1)).map (fun i => some (vs.getD i default)) :=
      List.map_congr_left (fun i hi => by rw [hget i (List.mem_range.mp hi)])
    have hfin : (List.range vs.length).map (fun i => some (vs.getD i default)) =
        vs.map some := by
      have hcast := congrArg (List.map some) (map_range_getD vs)
      rw [List.map_map] at hcast
      exact hcast
    rw [h1, ← hlen]
    exact hfin
  · rw [popN_from_filled hN h2]
    show (pop N (⟨N - 1, 0, N - 1, N - 1, bufW⟩ : State V)).1 = none
    rw [pop_on_drained]

end Spsc

/-!
Sharded MPSC of `src/MPSC.h`: `MPSCQueue<T, Capacity, MaxProducers>` keeps
an array of `MaxProducers` SPSC rings (`SPSCQueue<T, Capacity, true, true>`,
the model above), an atomic `producer_counter_` and a `consumer_round_robin_`
cursor.  A producer's first push claims shard `fetch_add(producer_counter_) %
MaxProducers` into thread-local storage; every later push goes to that shard.
-/
namespace ShardedMpsc

/-- State of `MPSCQueue<T, Capacity, MaxProducers>` (src/MPSC.h lines 9-119). -/
structure State (V : Type) where
  queues : List (Spsc.State V)
  producer_counter : Nat
  consumer_round_robin : Nat
deriving Repr, DecidableEq

/-- A fresh sharded queue: `M` fresh SPSC rings, both counters zero. -/
def init (V : Type) (N M : Nat) (v0 : V) : State V :=
  ⟨List.replicate M (Spsc.init V N v0), 0, 0⟩

/-- Producer registration (src/MPSC.h lines 31-35): the first push performs
`my_queue_id_ = producer_counter_.fetch_add(1) % MaxProducers`.  Returns the
claimed shard index and the updated state. -/
def registerProducer (M : Nat) (st : State V) : Nat × State V :=
  (st.producer_counter % M, { st with producer_counter := st.producer_counter + 1 })

/-- `push_with_writer` for a producer whose thread-local shard id is `qid`
(src/MPSC.h lines 30-38): forward to `queues_[qid]` and return that SPSC's
result.  The writer callback stores the producer's value, so the effect on
the shard is exactly an SPSC push of that value. -/
def push [Inhabited V] (N : Nat) (st : State V) (qid : Nat) (v : V) : Bool × State V :=
  let q := st.queues.getD qid default
  let r := Spsc.push N q v
  (r.1, { st with queues := st.queues.set qid r.2 })

/-- The scan loop of `pop` (src/MPSC.h lines 56-69):
`for i in 0..MaxProducers-1: idx := (start + i) % MaxProducers; try
queues_[idx].pop`.  A failed shard pop still writes back the shard (its
`cached_head` may have been refreshed).  Returns the hit shard and value,
if any, plus the updated shard array. -/
def popIter [Inhabited V] (N M start : Nat) :
    Nat → Nat → List (Spsc.State V) → Option (Nat × V) × List (Spsc.State V)
  | _, 0, qs => (none, qs)
  | i, r + 1, qs =>
    let idx := (start + i) % M
    let p := Spsc.pop N (qs.getD idx default)
    match p.1 with
    | some v => (some (idx, v), qs.set idx p.2)
    | none => popIter N M start (i + 1) r (qs.set idx p.2)

/-- `pop` (src/MPSC.h lines 56-69): round-robin over the shards starting at
`consumer_round_robin_`; on the first successful shard pop, store
`(idx + 1) % MaxProducers` into the cursor and return true; after a full
sweep of failures return false. -/
def pop [Inhabited V] (N M : Nat) (st : State V) : Option V × State V :=
  let r := popIter N M st.consumer_round_robin 0 M st.queues
  match r.1 with
  | some (idx, v) =>
    (some v, { st with queues := r.2, consumer_round_robin := (idx + 1) % M })
  | none => (none, { st with queues := r.2 })

/-- One sequential operation on the sharded queue.  A push carries the
producer's raw counter ticket `pid`; the shard actually used is
`pid % M`, mirroring the thread-local registration. -/
inductive Op (V : Type) where
  | register
  | push (pid : Nat) (v : V)
  | pop

def stepOp [Inhabited V] (N M : Nat) (st : State V) : Op V → State V
  | .register => (registerProducer M st).2
  | .push pid v => (push N st (pid % M) v).2
  | .pop => (pop N M st).2

inductive Reachable [Inhabited V] (N M : Nat) (v0 : V) : State V → Prop where
  | init : Reachable N M v0 (init V N M v0)
  | step {st : State V} (op : Op V) : Reachable N M v0 st → Reachable N M v0 (stepOp N M st op)

/-- Well-formedness: `M` shards, each a well-formed SPSC state. -/
def WF (N M : Nat) (st : State V) : Prop :=
  st.queues.length = M ∧ ∀ q ∈ st.queues, Spsc.WF N q

theorem getD_mem {α : Type} (l : List α) (i : Nat) (d : α) (hi : i < l.length) :
    l.getD i d ∈ l := by
  rw [List.getD_eq_getElem?_getD, List.getElem?_eq_getElem hi]
  exact List.getElem_mem _

theorem mem_set {α : Type} (l : List α) (i : Nat) (a x : α) (hx : x ∈ l.set i a) :
    x = a ∨ x ∈ l := by
  induction l generalizing i with
  | nil => simp at hx
  | cons b t ih =>
    cases i with
    | zero =>
      rcases List.mem_cons.mp hx with h | h
      · exact Or.inl h
      · exact Or.inr (List.mem_cons_of_mem _ h)
    | succ i' =>
      rcases List.mem_cons.mp hx with h | h
      · exact Or.inr (h ▸ List.mem_cons_self _ _)
      · rcases ih i' h with h2 | h2
        · exact Or.inl h2
        · exact Or.inr (List.mem_cons_of_mem _ h2)

theorem set_getD_self {α : Type} (l : List α) (i : Nat) (d : α) :
    l.set i (l.getD i d) = l := by
  induction l generalizing i with
  | nil => rfl
  | cons a t ih =>
    cases i with
    | zero => rfl
    | succ i' => simp only [List.set_cons_succ, List.getD_cons_succ, ih]

theorem popIter_WF {V : Type} [Inhabited V] {N m M : Nat} (hN : N = 2 ^ m)
    (hM : 0 < M) (start : Nat) :
    ∀ (r i : Nat) (qs : List (Spsc.State V)), qs.length = M →
      (∀ q ∈ qs, Spsc.WF N q) →
      ((∀ q ∈ (popIter N M start i r qs).2, Spsc.WF N q) ∧
       (popIter N M start i r qs).2.length = M) := by
  intro r
  induction r with
  | zero => intro i qs hlen h; exact ⟨h, hlen⟩
  | succ r' ih =>
    intro i qs hlen h
    have hidx : (start + i) % M < qs.length := by rw [hlen]; exact Nat.mod_lt _ hM
    have hqWF : Spsc.WF N (qs.getD ((start + i) % M) default) :=
      h _ (getD_mem _ _ _ hidx)
    have hpWF : Spsc.WF N (Spsc.pop N (qs.getD ((start + i) % M) default)).2 :=
      Spsc.pop_WF hN _ hqWF
    rw [popIter]
    rcases hpop : (Spsc.pop N (qs.getD ((start + i) % M) default)) with ⟨o, q2⟩
    have hq2 : Spsc.WF N q2 := by rw [hpop] at hpWF; exact hpWF
    cases o with
    | some v =>
      simp only
      refine ⟨?_, by rw [List.length_set, hlen]⟩
      intro q hq
      rcases mem_set _ _ _ _ hq with he | he
      · rw [he]; exact hq2
      · exact h _ he
    | none =>
      simp only
      refine ih (i + 1) (qs.set ((start + i) % M) q2)
        (by rw [List.length_set, hlen]) ?_
      intro q hq
      rcases mem_set _ _ _ _ hq with he | he
      · rw [he]; exact hq2
      · exact h _ he

/-- The scan of `pop` finds exactly the first non-empty shard in cyclic
probe order and pops one element from it; if every probed shard is empty it
fails and leaves the shard array untouched. -/
theorem popIter_spec {V : Type} [Inhabited V] {N m M : Nat} (hN : N = 2 ^ m)
    (hM : 0 < M) (start : Nat) :
    ∀ (r i : Nat) (qs : List (Spsc.State V)), qs.length = M →
      (∀ q ∈ qs, Spsc.WF N q) →
      (((List.range r).map (fun jj => (start + i + jj) % M)).find?
          (fun idx => !(Spsc.emptyQ (qs.getD idx default))) = none →
        popIter N M start i r qs = (none, qs)) ∧
      (∀ idx, ((List.range r).map (fun jj => (start + i + jj) % M)).find?
          (fun idx2 => !(Spsc.emptyQ (qs.getD idx2 default))) = some idx →
        popIter N M start i r qs =
          (some (idx, (qs.getD idx default).buffer.getD (qs.getD idx default).tail default),
           qs.set idx (Spsc.pop N (qs.getD idx default)).2)) := by
  intro r
  induction r with
  | zero =>
    intro i qs hlen h
    exact ⟨fun _ => rfl, fun idx hfind => by simp at hfind⟩
  | succ r' ih =>
    intro i qs hlen h
    have hidx : (start + i) % M < qs.length := by rw [hlen]; exact Nat.mod_lt _ hM
    have hqWF : Spsc.WF N (qs.getD ((start + i) % M) default) :=
      h _ (getD_mem _ _ _ hidx)
    have horder : (List.range (r' + 1)).map (fun jj => (start + i + jj) % M) =
        ((start + i) % M) ::
          (List.range r').map (fun jj => (start + (i + 1) + jj) % M) := by
      rw [List.range_succ_eq_map, List.map_cons, List.map_map]
      congr 1
      refine List.map_congr_left (fun jj _ => ?_)
      show (start + i + (jj + 1)) % M = (start + (i + 1) + jj) % M
      rw [show start + i + (jj + 1) = start + (i + 1) + jj by omega]
    by_cases hemp : Spsc.emptyQ (qs.getD ((start + i) % M) default) = true
    · -- the probed shard is empty: its pop fails and leaves it unchanged
      have hpop : Spsc.pop N (qs.getD ((start + i) % M) default) =
          (none, qs.getD ((start + i) % M) default) := by
        refine Spsc.pop_empty _ hqWF ?_
        unfold Spsc.emptyQ at hemp
        exact of_decide_eq_true hemp
      have hset : qs.set ((start + i) % M) (qs.getD ((start + i) % M) default) = qs :=
        set_getD_self _ _ _
      have hun : popIter N M start i (r' + 1) qs = popIter N M start (i + 1) r' qs := by
        rw [popIter, hpop]
        simp only
        rw [hset]
      have hrec := ih (i + 1) qs hlen h
      have hnp : ¬((!Spsc.emptyQ (qs.getD ((start + i) % M) default)) = true) := by
        rw [hemp]
        simp
      constructor
      · intro hfind
        rw [horder, List.find?_cons_of_neg (p := fun x => !Spsc.emptyQ (qs.getD x default)) _ hnp] at hfind
        rw [hun]
        exact hrec.1 hfind
      · intro idx hfind
        rw [horder, List.find?_cons_of_neg (p := fun x => !Spsc.emptyQ (qs.getD x default)) _ hnp] at hfind
        rw [hun]
        exact hrec.2 idx hfind
    · -- the probed shard is non-empty: its pop succeeds
      have hne : (qs.getD ((start + i) % M) default).head ≠
          (qs.getD ((start + i) % M) default).tail := by
        unfold Spsc.emptyQ at hemp
        intro he
        exact hemp (decide_eq_true he)
      have hv := Spsc.pop_nonempty (N := N) (qs.getD ((start + i) % M) default) hne
      have hempf : Spsc.emptyQ (qs.getD ((start + i) % M) default) = false := by
        cases hb : Spsc.emptyQ (qs.getD ((start + i) % M) default) with
        | true => exact absurd hb hemp
        | false => rfl
      have hpp : (!Spsc.emptyQ (qs.getD ((start + i) % M) default)) = true := by
        rw [hempf]
        rfl
      constructor
      · intro hfind
        rw [horder, List.find?_cons_of_pos (p := fun x => !Spsc.emptyQ (qs.getD x default)) _ hpp] at hfind
        exact absurd hfind (by simp)
      · intro idx hfind
        rw [horder, List.find?_cons_of_pos (p := fun x => !Spsc.emptyQ (qs.getD x default)) _ hpp] at hfind
        have hidx_eq : idx = (start + i) % M := by
          injection hfind with h2
          exact h2.symm
        subst hidx_eq
        rw [popIter]
        rcases hpop : (Spsc.pop N (qs.getD ((start + i) % M) default)) with ⟨o, q2⟩
        rw [hpop] at hv
        simp only at hv
        subst hv
        simp only

end ShardedMpsc

namespace ShardedMpsc

theorem sharded_init_WF {V : Type} [Inhabited V] {N m M : Nat} (hN : N = 2 ^ m) (v0 : V) :
    WF N M (init V N M v0) := by
  refine ⟨List.length_replicate .., ?_⟩
  intro q hq
  rw [List.eq_of_mem_replicate hq]
  exact Spsc.init_WF hN v0

theorem sharded_reachable_WF {V : Type} [Inhabited V] {N m M : Nat} (hN : N = 2 ^ m)
    (hM : 0 < M) (v0 : V) (st : State V) (hr : Reachable N M v0 st) : WF N M st := by
  induction hr with
  | init => exact sharded_init_WF hN v0
  | @step st2 op hprev ih =>
    obtain ⟨hlen, hwf⟩ := ih
    cases op with
    | register => exact ⟨hlen, hwf⟩
    | push pid v =>
      refine ⟨by simp [stepOp, push, List.length_set, hlen], ?_⟩
      intro q hq
      simp only [stepOp, push] at hq
      rcases mem_set _ _ _ _ hq with he | he
      · rw [he]
        refine Spsc.push_WF hN _ _ (hwf _ (getD_mem _ _ _ ?_))
        rw [hlen]
        exact Nat.mod_lt _ hM
      · exact hwf _ he
    | pop =>
      have hiter := popIter_WF hN hM st2.consumer_round_robin M 0 st2.queues hlen hwf
      simp only [stepOp, pop]
      rcases hres : (popIter N M st2.consumer_round_robin 0 M st2.queues).1 with _ | ⟨idx, v⟩
      · exact ⟨hiter.2, hiter.1⟩
      · exact ⟨hiter.2, hiter.1⟩

/-- C8. Sharded MPSC `pop` probes the `M` shards in cyclic order starting
at `consumer_round_robin`.  If every shard is empty the whole sweep fails:
`pop` returns `false` and the state is unchanged.  Otherwise the first
non-empty shard in probe order supplies exactly one element (its front
value), `consumer_round_robin` becomes `(that shard + 1) % M`, and no other
shard is touched. -/
theorem sharded_pop_round_robin {V : Type} [Inhabited V] {N m M : Nat}
    (hN : N = 2 ^ m) (hM : 0 < M) (v0 : V) (st : State V)
    (hr : Reachable N M v0 st) :
    ((((List.range M).map (fun i => (st.consumer_round_robin + i) % M)).find?
        (fun idx => !(Spsc.emptyQ (st.queues.getD idx default))) = none →
      pop N M st = (none, st)) ∧
     (∀ idx, (((List.range M).map (fun i => (st.consumer_round_robin + i) % M)).find?
        (fun idx2 => !(Spsc.emptyQ (st.queues.getD idx2 default))) = some idx →
      pop N M st =
        (some ((st.queues.getD idx default).buffer.getD
                 (st.queues.getD idx default).tail default),
         { st with
            queues := st.queues.set idx (Spsc.pop N (st.queues.getD idx default)).2,
            consumer_round_robin := (idx + 1) % M })))) := by
  obtain ⟨hlen, hwf⟩ := sharded_reachable_WF hN hM v0 st hr
  have hspec := popIter_spec hN hM st.consumer_round_robin M 0 st.queues hlen hwf
  have hzero : ∀ jj : Nat, st.consumer_round_robin + 0 + jj =
      st.consumer_round_robin + jj := by intro jj; omega
  constructor
  · intro hfind
    have hnone := hspec.1 (by
      have : ((List.range M).map (fun jj => (st.consumer_round_robin + 0 + jj) % M)) =
          ((List.range M).map (fun i => (st.consumer_round_robin + i) % M)) := by
        refine List.map_congr_left (fun jj _ => ?_)
        rw [hzero jj]
      rw [this]
      exact hfind)
    simp only [pop, hnone]
  · intro idx hfind
    have hsome := hspec.2 idx (by
      have : ((List.range M).map (fun jj => (st.consumer_round_robin + 0 + jj) % M)) =
          ((List.range M).map (fun i => (st.consumer_round_robin + i) % M)) := by
        refine List.map_congr_left (fun jj _ => ?_)
        rw [hzero jj]
      rw [this]
      exact hfind)
    simp only [pop, hsome]

end ShardedMpsc

/-!
Slot-seq MPSC of `src/mpsc/seq_mpsc.h`: `MPSCQueue<T, Capacity>` keeps a
ring of `Capacity` slots, each an atomic sequence tag plus payload, with
`seq[i] = i` at construction.  `push_with_writer(writer, seq)` spins until
`seq[seq & mask] == seq`, writes the payload, bumps `size_`, and publishes
`seq + 1`.  `pop` spins until `seq[expect & mask] == expect + 1`, reads the
payload, decrements `size_`, publishes `expect + Capacity` and advances
`expect_next_`.  A spinning operation never completes within a sequential
interleaving, which the model renders as `none`.
-/
namespace SeqMpsc

/-- State of `MPSCQueue<T, Capacity>` (src/mpsc/seq_mpsc.h lines 14-137):
the per-slot tags (`buffer_[i].seq`), the per-slot payloads
(`buffer_[i].data`), the `size_` counter, the implicit-variant global
sequence counter and the consumer's `expect_next_`. -/
structure State (V : Type) where
  seqs : List Nat
  data : List V
  size_ : Nat
  global_seq : Nat
  expect_next : Nat
deriving Repr, DecidableEq

/-- Construction (src/mpsc/seq_mpsc.h lines 43-47): `seq[i] := i`,
counters zero. -/
def init (V : Type) (N : Nat) (v0 : V) : State V :=
  ⟨List.range N, List.replicate N v0, 0, 0, 0⟩

/-- `write_mask(seq) = seq + 1` (src/mpsc/seq_mpsc.h line 26). -/
def write_mask (s : Nat) : Nat := s + 1

/-- `can_write_to_slot` (src/mpsc/seq_mpsc.h lines 32-34). -/
def can_write_to_slot (st : State V) (slot_idx s : Nat) : Bool :=
  st.seqs.getD slot_idx 0 == s

/-- `can_pop_slot` (src/mpsc/seq_mpsc.h lines 36-39). -/
def can_pop_slot (st : State V) (slot_idx s : Nat) : Bool :=
  st.seqs.getD slot_idx 0 == write_mask s

/-- `push_with_writer(writer, seq)` (src/mpsc/seq_mpsc.h lines 49-60):
spin until the slot `seq & mask` is writable for `seq`, write,
`size_.fetch_add(1)`, publish `seq + 1`, return `true`.  The spin is
modelled as `none` (the call does not complete in this interleaving);
on completion the returned boolean is paired with the new state. -/
def push_with_writer (N : Nat) (st : State V) (s : Nat) (v : V) :
    Option (Bool × State V) :=
  let slot_idx := s &&& (N - 1)
  if can_write_to_slot st slot_idx s then
    some (true,
      { st with
          data := st.data.set slot_idx v,
          size_ := st.size_ + 1,
          seqs := st.seqs.set slot_idx (write_mask s) })
  else
    none

/-- The implicit-seq overload (src/mpsc/seq_mpsc.h lines 62-65):
`push_with_writer(writer, global_seq.fetch_add(1))`. -/
def push_auto (N : Nat) (st : State V) (v : V) : Option (Bool × State V) :=
  push_with_writer N { st with global_seq := st.global_seq + 1 } st.global_seq v

/-- `pop` (src/mpsc/seq_mpsc.h lines 67-84): the check `if (empty())
return false` is commented out in the source; the consumer spins until
slot `expect_next & mask` holds a published value for `expect_next`,
reads it, `size_.fetch_sub(1)`, publishes `expect_next + Capacity` and
increments `expect_next`.  The spin is modelled as `none`. -/
def pop [Inhabited V] (N : Nat) (st : State V) : Option (V × State V) :=
  let e := st.expect_next
  let slot_idx := e &&& (N - 1)
  if can_pop_slot st slot_idx e then
    some (st.data.getD slot_idx default,
      { st with
          size_ := st.size_ - 1,
          seqs := st.seqs.set slot_idx (e + N),
          expect_next := e + 1 })
  else
    none

/-- `empty()` (src/mpsc/seq_mpsc.h line 125): `size_ == 0`. -/
def emptyQ (st : State V) : Bool := st.size_ == 0

/-- One operation of a sequential interleaving: an explicit-seq push, an
implicit (global-counter) push, or a pop. -/
inductive Op (V : Type) where
  | pushE (s : Nat) (v : V)
  | pushI (v : V)
  | pop

def isPop : Op V → Bool
  | .pop => true
  | _ => false

/-- Run an interleaving; `none` when some operation spins forever in it.
Collects the popped values in order. -/
def run [Inhabited V] (N : Nat) : List (Op V) → State V → Option (State V × List V)
  | [], st => some (st, [])
  | .pushE s v :: ops, st =>
    match push_with_writer N st s v with
    | some r => run N ops r.2
    | none => none
  | .pushI v :: ops, st =>
    match push_auto N st v with
    | some r => run N ops r.2
    | none => none
  | .pop :: ops, st =>
    match pop N st with
    | some (v, st2) =>
      match run N ops st2 with
      | some (st3, outs) => some (st3, v :: outs)
      | none => none
    | none => none

/-- A state is reachable when some completed interleaving produces it. -/
def Reachable [Inhabited V] (N : Nat) (v0 : V) (st : State V) : Prop :=
  ∃ ops : List (Op V), ∃ outs, run N ops (init V N v0) = some (st, outs)

/-- The sequence the protocol will next admit into slot `i` when the
consumer cursor is at `P`: the unique `s ≡ i (mod N)` with
`P ≤ s < P + N`. -/
def nextSeqFor (N P i : Nat) : Nat := P + ((i + N - P % N) % N)

/-- An interleaving is conforming to a value assignment when each
explicit push of sequence `s` carries the value `vals s` and no implicit
pushes occur. -/
def Conform (vals : Nat → V) : List (Op V) → Prop
  | [] => True
  | .pushE s v :: ops => v = vals s ∧ Conform vals ops
  | .pushI _ :: _ => False
  | .pop :: ops => Conform vals ops

/-- C10.  The slot-seq push never reports failure: whenever
`push_with_writer` returns (rather than spinning in its wait loop), the
returned boolean is `true`, for the explicit-seq and the implicit-seq
overloads alike. -/
theorem seq_push_never_fails {V : Type} (N : Nat) (st : State V) (s : Nat) (v : V)
    (r : Bool × State V) :
    (push_with_writer N st s v = some r → r.1 = true) ∧
    (∀ r2 : Bool × State V, push_auto N st v = some r2 → r2.1 = true) := by
  constructor
  · intro h
    simp only [push_with_writer] at h
    split at h
    · injection h with h2
      rw [← h2]
    · exact absurd h (by simp)
  · intro r2 h
    simp only [push_auto, push_with_writer] at h
    split at h
    · injection h with h2
      rw [← h2]
    · exact absurd h (by simp)

end SeqMpsc

namespace SeqMpsc

theorem nextSeqFor_mod {N P i : Nat} (h0 : 0 < N) (hi : i < N) :
    nextSeqFor N P i % N = i := by
  have hq : P % N < N := Nat.mod_lt _ h0
  have hdm := Nat.div_add_mod P N
  unfold nextSeqFor
  rcases Nat.lt_or_ge i (P % N) with hc | hc
  · have hd : (i + N - P % N) % N = i + N - P % N := by
      rw [Spsc.mod_two_cases h0 (by omega), if_pos (by omega)]
    rw [hd, show P + (i + N - P % N) = N * (P / N) + (N + i) by omega,
      Nat.mul_add_mod, Nat.add_mod_left]
    exact Nat.mod_eq_of_lt hi
  · have hd : (i + N - P % N) % N = i - P % N := by
      rw [Spsc.mod_two_cases h0 (by omega), if_neg (by omega)]
      omega
    rw [hd, show P + (i - P % N) = N * (P / N) + i by omega, Nat.mul_add_mod]
    exact Nat.mod_eq_of_lt hi

theorem nextSeqFor_ge {N P i : Nat} : P ≤ nextSeqFor N P i := Nat.le_add_right _ _

theorem nextSeqFor_lt {N P i : Nat} (h0 : 0 < N) : nextSeqFor N P i < P + N := by
  have := Nat.mod_lt (i + N - P % N) h0
  unfold nextSeqFor
  omega

theorem nextSeqFor_unique {N P i : Nat} (h0 : 0 < N) (hi : i < N) (s : Nat)
    (hs : s % N = i) (h1 : P ≤ s) (h2 : s < P + N) : s = nextSeqFor N P i := by
  have hm := nextSeqFor_mod (N := N) (P := P) h0 hi
  have hge := nextSeqFor_ge (N := N) (P := P) (i := i)
  have hlt := nextSeqFor_lt (N := N) (P := P) (i := i) h0
  have hmods : s % N = nextSeqFor N P i % N := by rw [hs, hm]
  have e1 : (nextSeqFor N P i - s) % N = 0 := Nat.sub_mod_eq_zero_of_mod_eq hmods.symm
  have e2 : (s - nextSeqFor N P i) % N = 0 := Nat.sub_mod_eq_zero_of_mod_eq hmods
  have hts : nextSeqFor N P i - s < N := by omega
  have hst : s - nextSeqFor N P i < N := by omega
  have f1 : nextSeqFor N P i - s = 0 := by rw [← Nat.mod_eq_of_lt hts]; exact e1
  have f2 : s - nextSeqFor N P i = 0 := by rw [← Nat.mod_eq_of_lt hst]; exact e2
  omega

theorem nextSeqFor_self {N P : Nat} (h0 : 0 < N) : nextSeqFor N P (P % N) = P :=
  (nextSeqFor_unique h0 (Nat.mod_lt _ h0) P rfl (Nat.le_refl _) (by omega)).symm

theorem nextSeqFor_succ_self {N P : Nat} (h0 : 0 < N) :
    nextSeqFor N (P + 1) (P % N) = P + N :=
  (nextSeqFor_unique h0 (Nat.mod_lt _ h0) (P + N) (Nat.add_mod_right P N)
    (by omega) (by omega)).symm

theorem nextSeqFor_succ_other {N P j : Nat} (h0 : 0 < N) (hj : j < N)
    (hne : j ≠ P % N) : nextSeqFor N (P + 1) j = nextSeqFor N P j := by
  refine (nextSeqFor_unique h0 hj (nextSeqFor N P j) (nextSeqFor_mod h0 hj) ?_ ?_).symm
  · rcases Nat.lt_or_ge P (nextSeqFor N P j) with hc | hc
    · omega
    · exfalso
      have hP : nextSeqFor N P j = P :=
        Nat.le_antisymm hc (nextSeqFor_ge (N := N) (P := P) (i := j))
      have := nextSeqFor_mod (N := N) (P := P) h0 hj
      rw [hP] at this
      exact hne this.symm
  · have := nextSeqFor_lt (N := N) (P := P) (i := j) h0
    omega

theorem countP_range_flip {N i : Nat} (hi : i < N) (p q : Nat → Bool)
    (hpq : ∀ j, j < N → j ≠ i → p j = q j) (hp : p i = false) (hq : q i = true) :
    (List.range N).countP q = (List.range N).countP p + 1 := by
  induction N with
  | zero => omega
  | succ n ih =>
    rw [List.range_succ, List.countP_append, List.countP_append]
    rcases Nat.lt_or_ge i n with hc | hc
    · rw [ih hc (fun j hj hji => hpq j (by omega) hji)]
      have hsing : List.countP q [n] = List.countP p [n] := by
        rw [List.countP_singleton, List.countP_singleton, hpq n (by omega) (by omega)]
      omega
    · have hin : i = n := by omega
      subst hin
      have hsame : (List.range i).countP q = (List.range i).countP p := by
        refine List.countP_congr ?_
        intro a ha
        rw [hpq a (by have := List.mem_range.mp ha; omega)
          (by have := List.mem_range.mp ha; omega)]
      rw [hsame, List.countP_singleton, List.countP_singleton, hp, hq]
      simp

/-- The tag invariant of the slot-seq protocol: with consumer cursor `P`,
slot `i` carries either the next admissible sequence for that slot
(writable) or its successor (published, awaiting the consumer); `size_`
counts the published slots. -/
def TagInv (N P : Nat) (st : State V) : Prop :=
  st.expect_next = P ∧ st.seqs.length = N ∧ st.data.length = N ∧
  (∀ i, i < N → st.seqs.getD i 0 = nextSeqFor N P i ∨
    st.seqs.getD i 0 = nextSeqFor N P i + 1) ∧
  st.size_ = (List.range N).countP (fun i => st.seqs.getD i 0 == nextSeqFor N P i + 1)

/-- The value invariant: every published slot holds the value that the
conforming interleaving pushed with that sequence. -/
def DataInv [Inhabited V] (N : Nat) (vals : Nat → V) (P : Nat) (st : State V) : Prop :=
  ∀ i, i < N → st.seqs.getD i 0 = nextSeqFor N P i + 1 →
    st.data.getD i default = vals (nextSeqFor N P i)

theorem init_TagInv {V : Type} {N : Nat} (h0 : 0 < N) (v0 : V) :
    TagInv N 0 (init V N v0) := by
  have hget : ∀ i, i < N → (List.range N).getD i 0 = i := by
    intro i hi
    rw [List.getD_eq_getElem?_getD, List.getElem?_eq_getElem (by simpa using hi)]
    simp
  have hnsf : ∀ i, i < N → nextSeqFor N 0 i = i := by
    intro i hi
    exact (nextSeqFor_unique h0 hi i (Nat.mod_eq_of_lt hi) (Nat.zero_le _) (by omega)).symm
  refine ⟨rfl, by simp [init], by simp [init], ?_, ?_⟩
  · intro i hi
    left
    show (List.range N).getD i 0 = nextSeqFor N 0 i
    rw [hget i hi, hnsf i hi]
  · show (0 : Nat) = (List.range N).countP _
    symm
    rw [List.countP_eq_zero]
    intro a ha
    have hai := List.mem_range.mp ha
    show ¬(((List.range N).getD a 0 == nextSeqFor N 0 a + 1) = true)
    rw [hget a hai, hnsf a hai]
    simp

theorem init_DataInv {V : Type} [Inhabited V] {N : Nat} (h0 : 0 < N) (v0 : V)
    (vals : Nat → V) : DataInv N vals 0 (init V N v0) := by
  intro i hi htag
  exfalso
  have hget : (List.range N).getD i 0 = i := by
    rw [List.getD_eq_getElem?_getD, List.getElem?_eq_getElem (by simpa using hi)]
    simp
  have hnsf : nextSeqFor N 0 i = i :=
    (nextSeqFor_unique h0 hi i (Nat.mod_eq_of_lt hi) (Nat.zero_le _) (by omega)).symm
  rw [show (init V N v0).seqs = List.range N from rfl, hget, hnsf] at htag
  omega

end SeqMpsc


namespace SeqMpsc

theorem succ_mod_ne {N x : Nat} (h2 : 2 ≤ N) : (x + 1) % N ≠ x % N := by
  intro he
  have h0 : 0 < N := by omega
  have hx : x % N < N := Nat.mod_lt _ h0
  have h1 : (x + 1) % N = (x % N + 1) % N := by
    rw [Nat.add_mod, Nat.mod_eq_of_lt (show 1 < N by omega)]
  rw [h1, Spsc.succ_mod hx] at he
  split at he <;> omega

theorem push_characterize {V : Type} {N m : Nat} (hN : N = 2 ^ m) (hm : 1 ≤ m)
    (P : Nat) (st : State V) (s : Nat) (v : V) (r : Bool × State V)
    (hTag : TagInv N P st) (hpush : push_with_writer N st s v = some r) :
    s % N < N ∧ st.seqs.getD (s % N) 0 = s ∧ s = nextSeqFor N P (s % N) ∧
    r.2 = { st with
              data := st.data.set (s % N) v,
              size_ := st.size_ + 1,
              seqs := st.seqs.set (s % N) (s + 1) } := by
  have h0 : 0 < N := by subst hN; exact Nat.pos_pow_of_pos m (by omega)
  have h2 : 2 ≤ N := by
    subst hN
    calc 2 = 2 ^ 1 := by norm_num
    _ ≤ 2 ^ m := Nat.pow_le_pow_right (by omega) hm
  obtain ⟨hexp, hslen, hdlen, htags, hsize⟩ := hTag
  simp only [push_with_writer, Spsc.land_mask hN, can_write_to_slot, write_mask] at hpush
  split at hpush
  case isTrue hcond =>
    have htag_s : st.seqs.getD (s % N) 0 = s := by simpa using hcond
    have hi : s % N < N := Nat.mod_lt _ h0
    rcases htags _ hi with hcase | hcase
    · refine ⟨hi, htag_s, by rw [← hcase, htag_s], ?_⟩
      injection hpush with h3
      rw [← h3]
    · exfalso
      have hs_eq : s = nextSeqFor N P (s % N) + 1 := by rw [← hcase, htag_s]
      have hmod := nextSeqFor_mod (N := N) (P := P) h0 hi
      have hbad : (nextSeqFor N P (s % N) + 1) % N = nextSeqFor N P (s % N) % N := by
        rw [hmod, ← hs_eq]
      exact succ_mod_ne h2 hbad
  case isFalse => exact absurd hpush (by simp)

theorem pop_characterize {V : Type} [Inhabited V] {N m : Nat} (hN : N = 2 ^ m)
    (P : Nat) (st : State V) (v : V) (st2 : State V)
    (hTag : TagInv N P st) (hpop : pop N st = some (v, st2)) :
    st.seqs.getD (P % N) 0 = P + 1 ∧ v = st.data.getD (P % N) default ∧
    st2 = { st with
              size_ := st.size_ - 1,
              seqs := st.seqs.set (P % N) (P + N),
              expect_next := P + 1 } := by
  obtain ⟨hexp, hslen, hdlen, htags, hsize⟩ := hTag
  simp only [pop, Spsc.land_mask hN, can_pop_slot, write_mask, hexp] at hpop
  split at hpop
  case isTrue hcond =>
    have htag : st.seqs.getD (P % N) 0 = P + 1 := by simpa using hcond
    injection hpop with h3
    injection h3 with h4 h5
    exact ⟨htag, h4.symm, h5.symm⟩
  case isFalse => exact absurd hpop (by simp)

theorem TagInv_push {V : Type} {N m : Nat} (hN : N = 2 ^ m) (hm : 1 ≤ m)
    (P : Nat) (st : State V) (s : Nat) (v : V) (r : Bool × State V)
    (hTag : TagInv N P st) (hpush : push_with_writer N st s v = some r) :
    TagInv N P r.2 := by
  obtain ⟨hi, htag_s, hs, hst⟩ := push_characterize hN hm P st s v r hTag hpush
  obtain ⟨hexp, hslen, hdlen, htags, hsize⟩ := hTag
  rw [hst]
  refine ⟨hexp, by rw [List.length_set]; exact hslen,
    by rw [List.length_set]; exact hdlen, ?_, ?_⟩
  · intro j hj
    by_cases hji : j = s % N
    · subst hji
      right
      rw [Spsc.getD_set_self _ _ _ _ (by rw [hslen]; exact hi), ← hs]
    · rw [Spsc.getD_set_ne _ _ _ _ _ (fun he => hji he.symm)]
      exact htags j hj
  · show st.size_ + 1 = (List.range N).countP _
    rw [hsize]
    symm
    have hpq : ∀ j, j < N → j ≠ s % N →
        (st.seqs.getD j 0 == nextSeqFor N P j + 1) =
        ((st.seqs.set (s % N) (s + 1)).getD j 0 == nextSeqFor N P j + 1) := by
      intro j _ hj
      rw [Spsc.getD_set_ne _ _ _ _ _ (fun he => hj he.symm)]
    have hp : (st.seqs.getD (s % N) 0 == nextSeqFor N P (s % N) + 1) = false := by
      rw [htag_s, ← hs]
      simp
    have hq : ((st.seqs.set (s % N) (s + 1)).getD (s % N) 0 ==
        nextSeqFor N P (s % N) + 1) = true := by
      rw [Spsc.getD_set_self _ _ _ _ (by rw [hslen]; exact hi), ← hs]
      simp
    exact countP_range_flip hi _ _ hpq hp hq

theorem DataInv_push {V : Type} [Inhabited V] {N m : Nat} (hN : N = 2 ^ m) (hm : 1 ≤ m)
    (vals : Nat → V) (P : Nat) (st : State V) (s : Nat) (r : Bool × State V)
    (hTag : TagInv N P st) (hData : DataInv N vals P st)
    (hpush : push_with_writer N st s (vals s) = some r) :
    DataInv N vals P r.2 := by
  obtain ⟨hi, htag_s, hs, hst⟩ := push_characterize hN hm P st s (vals s) r hTag hpush
  obtain ⟨hexp, hslen, hdlen, htags, hsize⟩ := hTag
  rw [hst]
  intro j hj htagj
  by_cases hji : j = s % N
  · subst hji
    show (st.data.set (s % N) (vals s)).getD (s % N) default =
      vals (nextSeqFor N P (s % N))
    rw [Spsc.getD_set_self _ _ _ _ (by rw [hdlen]; exact hi)]
    exact congrArg vals hs
  · simp only at htagj
    rw [Spsc.getD_set_ne _ _ _ _ _ (fun he => hji he.symm)] at htagj
    simp only
    rw [Spsc.getD_set_ne _ _ _ _ _ (fun he => hji he.symm)]
    exact hData j hj htagj

theorem TagInv_pop {V : Type} [Inhabited V] {N m : Nat} (hN : N = 2 ^ m)
    (P : Nat) (st : State V) (v : V) (st2 : State V)
    (hTag : TagInv N P st) (hpop : pop N st = some (v, st2)) :
    TagInv N (P + 1) st2 := by
  have h0 : 0 < N := by subst hN; exact Nat.pos_pow_of_pos m (by omega)
  obtain ⟨htag_i, hval, hst⟩ := pop_characterize hN P st v st2 hTag hpop
  obtain ⟨hexp, hslen, hdlen, htags, hsize⟩ := hTag
  have hiP : P % N < N := Nat.mod_lt _ h0
  rw [hst]
  refine ⟨rfl, by rw [List.length_set]; exact hslen, hdlen, ?_, ?_⟩
  · intro j hj
    by_cases hji : j = P % N
    · subst hji
      left
      rw [Spsc.getD_set_self _ _ _ _ (by rw [hslen]; exact hiP),
        nextSeqFor_succ_self h0]
    · rw [Spsc.getD_set_ne _ _ _ _ _ (fun he => hji he.symm),
        nextSeqFor_succ_other h0 hj hji]
      exact htags j hj
  · show st.size_ - 1 = (List.range N).countP
      (fun j => (st.seqs.set (P % N) (P + N)).getD j 0 == nextSeqFor N (P + 1) j + 1)
    have hpq : ∀ j, j < N → j ≠ P % N →
        ((st.seqs.set (P % N) (P + N)).getD j 0 == nextSeqFor N (P + 1) j + 1) =
        (st.seqs.getD j 0 == nextSeqFor N P j + 1) := by
      intro j hj hji
      rw [Spsc.getD_set_ne _ _ _ _ _ (fun he => hji he.symm),
        nextSeqFor_succ_other h0 hj hji]
    have hp : ((st.seqs.set (P % N) (P + N)).getD (P % N) 0 ==
        nextSeqFor N (P + 1) (P % N) + 1) = false := by
      rw [Spsc.getD_set_self _ _ _ _ (by rw [hslen]; exact hiP),
        nextSeqFor_succ_self h0]
      simp
    have hq : (st.seqs.getD (P % N) 0 == nextSeqFor N P (P % N) + 1) = true := by
      rw [nextSeqFor_self h0, htag_i]
      simp
    have hflip := countP_range_flip hiP _ _ hpq hp hq
    rw [hsize, hflip]
    omega

theorem DataInv_pop {V : Type} [Inhabited V] {N m : Nat} (hN : N = 2 ^ m)
    (vals : Nat → V) (P : Nat) (st : State V) (v : V) (st2 : State V)
    (hTag : TagInv N P st) (hData : DataInv N vals P st)
    (hpop : pop N st = some (v, st2)) :
    DataInv N vals (P + 1) st2 := by
  have h0 : 0 < N := by subst hN; exact Nat.pos_pow_of_pos m (by omega)
  obtain ⟨htag_i, hval, hst⟩ := pop_characterize hN P st v st2 hTag hpop
  obtain ⟨hexp, hslen, hdlen, htags, hsize⟩ := hTag
  have hiP : P % N < N := Nat.mod_lt _ h0
  rw [hst]
  intro j hj htagj
  by_cases hji : j = P % N
  · subst hji
    simp only at htagj
    rw [Spsc.getD_set_self _ _ _ _ (by rw [hslen]; exact hiP),
      nextSeqFor_succ_self h0] at htagj
    omega
  · simp only at htagj ⊢
    rw [Spsc.getD_set_ne _ _ _ _ _ (fun he => hji he.symm),
      nextSeqFor_succ_other h0 hj hji] at htagj
    rw [nextSeqFor_succ_other h0 hj hji]
    exact hData j hj htagj

/-- Under the invariants, a successful pop at cursor `P` returns the value
pushed with sequence `P`. -/
theorem pop_value {V : Type} [Inhabited V] {N m : Nat} (hN : N = 2 ^ m)
    (vals : Nat → V) (P : Nat) (st : State V) (v : V) (st2 : State V)
    (hTag : TagInv N P st) (hData : DataInv N vals P st)
    (hpop : pop N st = some (v, st2)) : v = vals P := by
  have h0 : 0 < N := by subst hN; exact Nat.pos_pow_of_pos m (by omega)
  obtain ⟨htag_i, hval, hst⟩ := pop_characterize hN P st v st2 hTag hpop
  have hiP : P % N < N := Nat.mod_lt _ h0
  have := hData (P % N) hiP (by rw [htag_i, nextSeqFor_self h0])
  rw [hval, this, nextSeqFor_self h0]

/-- With the slot-seq queue empty (`size_ = 0`), `pop` spins: no published
slot exists, in particular not the one the consumer is waiting on. -/
theorem pop_on_empty_spins {V : Type} [Inhabited V] {N m : Nat} (hN : N = 2 ^ m)
    (P : Nat) (st : State V) (hTag : TagInv N P st) (hempty : st.size_ = 0) :
    pop N st = none := by
  have h0 : 0 < N := by subst hN; exact Nat.pos_pow_of_pos m (by omega)
  obtain ⟨hexp, hslen, hdlen, htags, hsize⟩ := hTag
  have hiP : P % N < N := Nat.mod_lt _ h0
  have hnone : ∀ a ∈ List.range N,
      ¬((st.seqs.getD a 0 == nextSeqFor N P a + 1) = true) := by
    rw [← List.countP_eq_zero]
    omega
  have htagP := hnone (P % N) (List.mem_range.mpr hiP)
  simp only [pop, Spsc.land_mask hN, can_pop_slot, write_mask, hexp]
  rw [if_neg ?_]
  intro hcond
  rw [nextSeqFor_self h0] at htagP
  exact htagP hcond

end SeqMpsc

namespace SeqMpsc

/-- Master run lemma for conforming interleavings of the explicit-seq
variant: the invariants are maintained and the pops emit
`vals P, vals (P+1), …` consecutively. -/
theorem run_spec {V : Type} [Inhabited V] {N m : Nat} (hN : N = 2 ^ m) (hm : 1 ≤ m)
    (vals : Nat → V) :
    ∀ (ops : List (Op V)) (st : State V) (P : Nat),
      TagInv N P st → DataInv N vals P st → Conform vals ops →
      ∀ st2 outs, run N ops st = some (st2, outs) →
        TagInv N st2.expect_next st2 ∧ DataInv N vals st2.expect_next st2 ∧
        P ≤ st2.expect_next ∧
        outs = (List.range' P (st2.expect_next - P)).map vals := by
  intro ops
  induction ops with
  | nil =>
    intro st P hT hD hC st2 outs hrun
    simp only [run] at hrun
    injection hrun with h1
    injection h1 with h2 h3
    subst h2
    obtain ⟨hexp, hrest⟩ := hT
    rw [hexp]
    refine ⟨⟨hexp, hrest⟩, hD, Nat.le_refl _, ?_⟩
    rw [← h3, Nat.sub_self]
    rfl
  | cons op rest ih =>
    intro st P hT hD hC st2 outs hrun
    cases op with
    | pushE s v =>
      obtain ⟨hv, hC2⟩ := hC
      simp only [run] at hrun
      rcases hpr : push_with_writer N st s v with _ | r
      · rw [hpr] at hrun
        exact absurd hrun (by simp)
      · rw [hpr] at hrun
        subst hv
        have hT2 := TagInv_push hN hm P st s (vals s) r hT hpr
        have hD2 := DataInv_push hN hm vals P st s r hT hD hpr
        exact ih r.2 P hT2 hD2 hC2 st2 outs hrun
    | pushI v => exact absurd hC (by simp [Conform])
    | pop =>
      have hC2 : Conform vals rest := hC
      simp only [run] at hrun
      rcases hpr : pop N st with _ | p
      · rw [hpr] at hrun
        exact absurd hrun (by simp)
      · rw [hpr] at hrun
        rcases p with ⟨v, stp⟩
        have hT2 := TagInv_pop hN P st v stp hT hpr
        have hD2 := DataInv_pop hN vals P st v stp hT hD hpr
        have hv := pop_value hN vals P st v stp hT hD hpr
        have hrun2 : (match run N rest stp with
            | some (st3, outs3) => some (st3, v :: outs3)
            | none => none) = some (st2, outs) := hrun
        rcases hrr : run N rest stp with _ | q
        · rw [hrr] at hrun2
          exact absurd hrun2 (by simp)
        · rw [hrr] at hrun2
          rcases q with ⟨st3, outs3⟩
          simp only at hrun2
          injection hrun2 with h1
          injection h1 with h2 h3
          obtain ⟨hT3, hD3, hle, houts⟩ := ih stp (P + 1) hT2 hD2 hC2 st3 outs3 hrr
          rw [h2] at hT3 hD3 hle houts
          refine ⟨hT3, hD3, by omega, ?_⟩
          rw [← h3, houts, hv]
          have hk : st2.expect_next - P = (st2.expect_next - (P + 1)) + 1 := by omega
          rw [hk, List.range'_succ, List.map_cons]
end SeqMpsc

namespace SeqMpsc

/-- `expect_next` advances by exactly the number of pops in a completed
interleaving. -/
theorem run_expect {V : Type} [Inhabited V] (N : Nat) :
    ∀ (ops : List (Op V)) (st st2 : State V) (outs : List V),
      run N ops st = some (st2, outs) →
      st2.expect_next = st.expect_next + ops.countP isPop := by
  intro ops
  induction ops with
  | nil =>
    intro st st2 outs hrun
    simp only [run] at hrun
    injection hrun with h1
    injection h1 with h2 _
    rw [← h2]
    simp
  | cons op rest ih =>
    intro st st2 outs hrun
    cases op with
    | pushE s v =>
      simp only [run] at hrun
      rcases hpr : push_with_writer N st s v with _ | r
      · rw [hpr] at hrun; exact absurd hrun (by simp)
      · rw [hpr] at hrun
        have hexp : r.2.expect_next = st.expect_next := by
          simp only [push_with_writer] at hpr
          split at hpr
          · injection hpr with h2; rw [← h2]
          · exact absurd hpr (by simp)
        have hcnt : List.countP isPop (Op.pushE s v :: rest) =
            List.countP isPop rest := List.countP_cons_of_neg _ _ (by simp [isPop])
        rw [ih r.2 st2 outs hrun, hexp, hcnt]
    | pushI v =>
      simp only [run] at hrun
      rcases hpr : push_auto N st v with _ | r
      · rw [hpr] at hrun; exact absurd hrun (by simp)
      · rw [hpr] at hrun
        have hexp : r.2.expect_next = st.expect_next := by
          simp only [push_auto, push_with_writer] at hpr
          split at hpr
          · injection hpr with h2; rw [← h2]
          · exact absurd hpr (by simp)
        have hcnt : List.countP isPop (Op.pushI v :: rest) =
            List.countP isPop rest := List.countP_cons_of_neg _ _ (by simp [isPop])
        rw [ih r.2 st2 outs hrun, hexp, hcnt]
    | pop =>
      simp only [run] at hrun
      rcases hpr : pop N st with _ | p
      · rw [hpr] at hrun; exact absurd hrun (by simp)
      · rw [hpr] at hrun
        rcases p with ⟨v, stp⟩
        have hexp : stp.expect_next = st.expect_next + 1 := by
          simp only [pop] at hpr
          split at hpr
          · injection hpr with h2
            injection h2 with h3 h4
            rw [← h4]
          · exact absurd hpr (by simp)
        have hrun2 : (match run N rest stp with
            | some (st3, outs3) => some (st3, v :: outs3)
            | none => none) = some (st2, outs) := hrun
        rcases hrr : run N rest stp with _ | q
        · rw [hrr] at hrun2; exact absurd hrun2 (by simp)
        · rw [hrr] at hrun2
          rcases q with ⟨st3, outs3⟩
          simp only at hrun2
          injection hrun2 with h1
          injection h1 with h2 _
          have hcnt : List.countP isPop (Op.pop :: rest) =
              List.countP isPop rest + 1 :=
            List.countP_cons_of_pos _ _ (by simp [isPop])
          rw [← h2, ih stp st3 outs3 hrr, hexp, hcnt]
          omega

/-- C2. Explicit-seq slot-seq MPSC delivers strictly by sequence number:
in every completed interleaving in which each push of sequence `s` carries
the value `vals s`, the consumer's pops return
`vals 0, vals 1, vals 2, …` in exactly ascending sequence order — in
particular, pushing sequences `0..K-1` (each once, in any arrival order)
and popping `K` times yields the payloads of `0, 1, …, K-1` in that
order. -/
theorem seq_mpsc_explicit_fifo {V : Type} [Inhabited V] {N m : Nat}
    (hN : N = 2 ^ m) (hm : 1 ≤ m) (v0 : V) (vals : Nat → V) (ops : List (Op V))
    (hC : Conform vals ops) (st2 : State V) (outs : List V)
    (hrun : run N ops (init V N v0) = some (st2, outs)) :
    outs = (List.range (ops.countP isPop)).map vals := by
  have h0 : 0 < N := by subst hN; exact Nat.pos_pow_of_pos m (by omega)
  have hT := init_TagInv h0 v0
  have hD := init_DataInv h0 v0 vals
  obtain ⟨_, _, _, houts⟩ := run_spec hN hm vals ops _ 0 hT hD hC st2 outs hrun
  have hE := run_expect N ops (init V N v0) st2 outs hrun
  have hE0 : st2.expect_next = ops.countP isPop := by
    rw [hE]
    simp [init]
  rw [houts, hE0, List.range_eq_range']
  rfl

theorem run_TagInv {V : Type} [Inhabited V] {N m : Nat} (hN : N = 2 ^ m) (hm : 1 ≤ m) :
    ∀ (ops : List (Op V)) (st : State V) (P : Nat), TagInv N P st →
      ∀ st2 outs, run N ops st = some (st2, outs) → TagInv N st2.expect_next st2 := by
  intro ops
  induction ops with
  | nil =>
    intro st P hT st2 outs hrun
    simp only [run] at hrun
    injection hrun with h1
    injection h1 with h2 _
    rw [← h2]
    obtain ⟨hexp, hrest⟩ := hT
    rw [hexp]
    exact ⟨hexp, hrest⟩
  | cons op rest ih =>
    intro st P hT st2 outs hrun
    cases op with
    | pushE s v =>
      simp only [run] at hrun
      rcases hpr : push_with_writer N st s v with _ | r
      · rw [hpr] at hrun; exact absurd hrun (by simp)
      · rw [hpr] at hrun
        exact ih r.2 P (TagInv_push hN hm P st s v r hT hpr) st2 outs hrun
    | pushI v =>
      simp only [run] at hrun
      rcases hpr : push_auto N st v with _ | r
      · rw [hpr] at hrun; exact absurd hrun (by simp)
      · rw [hpr] at hrun
        have hT' : TagInv N P { st with global_seq := st.global_seq + 1 } := hT
        exact ih r.2 P
          (TagInv_push hN hm P _ st.global_seq v r hT' hpr) st2 outs hrun
    | pop =>
      simp only [run] at hrun
      rcases hpr : pop N st with _ | p
      · rw [hpr] at hrun; exact absurd hrun (by simp)
      · rw [hpr] at hrun
        rcases p with ⟨v, stp⟩
        have hrun2 : (match run N rest stp with
            | some (st3, outs3) => some (st3, v :: outs3)
            | none => none) = some (st2, outs) := hrun
        rcases hrr : run N rest stp with _ | q
        · rw [hrr] at hrun2; exact absurd hrun2 (by simp)
        · rw [hrr] at hrun2
          rcases q with ⟨st3, outs3⟩
          simp only at hrun2
          injection hrun2 with h1
          injection h1 with h2 _
          have := ih stp (P + 1) (TagInv_pop hN P st v stp hT hpr) st3 outs3 hrr
          rw [h2] at this
          exact this

theorem reachable_TagInv {V : Type} [Inhabited V] {N m : Nat} (hN : N = 2 ^ m)
    (hm : 1 ≤ m) (v0 : V) (st : State V) (hr : Reachable N v0 st) :
    TagInv N st.expect_next st := by
  obtain ⟨ops, outs, hrun⟩ := hr
  have h0 : 0 < N := by subst hN; exact Nat.pos_pow_of_pos m (by omega)
  exact run_TagInv hN hm ops (init V N v0) 0 (init_TagInv h0 v0) st outs hrun

end SeqMpsc

namespace SeqMpsc

theorem push_tags_mono {V : Type} {N m : Nat} (hN : N = 2 ^ m)
    (st : State V) (s : Nat) (v : V) (r : Bool × State V)
    (hpush : push_with_writer N st s v = some r) :
    ∀ i, st.seqs.getD i 0 ≤ r.2.seqs.getD i 0 := by
  intro i
  simp only [push_with_writer, Spsc.land_mask hN, can_write_to_slot, write_mask] at hpush
  split at hpush
  case isTrue hcond =>
    have htag : st.seqs.getD (s % N) 0 = s := by simpa using hcond
    injection hpush with h2
    rw [← h2]
    show st.seqs.getD i 0 ≤ (st.seqs.set (s % N) (s + 1)).getD i 0
    by_cases hi : i = s % N
    · rw [← hi] at htag ⊢
      by_cases hlt : i < st.seqs.length
      · rw [Spsc.getD_set_self _ _ _ _ hlt]
        omega
      · rw [List.set_eq_of_length_le (by omega)]
    · rw [Spsc.getD_set_ne _ _ _ _ _ (fun he => hi he.symm)]
  case isFalse => exact absurd hpush (by simp)

theorem pop_tags_mono {V : Type} [Inhabited V] {N m : Nat} (hN : N = 2 ^ m)
    (st : State V) (v : V) (st2 : State V)
    (hpop : pop N st = some (v, st2)) :
    ∀ i, st.seqs.getD i 0 ≤ st2.seqs.getD i 0 := by
  intro i
  have h0 : 0 < N := by subst hN; exact Nat.pos_pow_of_pos m (by omega)
  simp only [pop, Spsc.land_mask hN, can_pop_slot, write_mask] at hpop
  split at hpop
  case isTrue hcond =>
    have htag : st.seqs.getD (st.expect_next % N) 0 = st.expect_next + 1 := by
      simpa using hcond
    injection hpop with h2
    injection h2 with h3 h4
    rw [← h4]
    show st.seqs.getD i 0 ≤
      (st.seqs.set (st.expect_next % N) (st.expect_next + N)).getD i 0
    by_cases hi : i = st.expect_next % N
    · rw [← hi] at htag ⊢
      by_cases hlt : i < st.seqs.length
      · rw [Spsc.getD_set_self _ _ _ _ hlt]
        omega
      · rw [List.set_eq_of_length_le (by omega)]
    · rw [Spsc.getD_set_ne _ _ _ _ _ (fun he => hi he.symm)]
  case isFalse => exact absurd hpop (by simp)

/-- C7. The slot-state invariant of the slot-seq MPSC: in every reachable
state, slot `i`'s tag is `i + k·N` (writable for round `k`) or
`i + k·N + 1` (published) for some `k ≥ 0` — it starts at `i` at
construction — and a completed operation never decreases any slot's tag
(a push of sequence `c` moves its slot's tag from `c` to `c + 1`; the
consuming pop moves it from `c + 1` to `c + N`), so each slot's round `k`
is monotonically non-decreasing. -/
theorem seq_mpsc_slot_invariant {V : Type} [Inhabited V] {N m : Nat}
    (hN : N = 2 ^ m) (hm : 1 ≤ m) (v0 : V) (st : State V)
    (hr : Reachable N v0 st) :
    (∀ i, i < N → ∃ k, st.seqs.getD i 0 = i + k * N ∨
      st.seqs.getD i 0 = i + k * N + 1) ∧
    (∀ (s : Nat) (v : V) (r : Bool × State V), push_with_writer N st s v = some r →
      ∀ i, st.seqs.getD i 0 ≤ r.2.seqs.getD i 0) ∧
    (∀ (v : V) (r : Bool × State V), push_auto N st v = some r →
      ∀ i, st.seqs.getD i 0 ≤ r.2.seqs.getD i 0) ∧
    (∀ (v : V) (st2 : State V), pop N st = some (v, st2) →
      ∀ i, st.seqs.getD i 0 ≤ st2.seqs.getD i 0) := by
  have h0 : 0 < N := by subst hN; exact Nat.pos_pow_of_pos m (by omega)
  obtain ⟨hexp, hslen, hdlen, htags, hsize⟩ := reachable_TagInv hN hm v0 st hr
  refine ⟨?_, ?_, ?_, ?_⟩
  · intro i hi
    have hdm := Nat.div_add_mod (nextSeqFor N st.expect_next i) N
    rw [nextSeqFor_mod h0 hi] at hdm
    refine ⟨nextSeqFor N st.expect_next i / N, ?_⟩
    rcases htags i hi with hcase | hcase
    · left
      rw [hcase, Nat.mul_comm]
      omega
    · right
      rw [hcase, Nat.mul_comm]
      omega
  · intro s v r hpush i
    exact push_tags_mono hN st s v r hpush i
  · intro v r hpush i
    exact push_tags_mono hN _ st.global_seq v r hpush i
  · intro v st2 hpop i
    exact pop_tags_mono hN st v st2 hpop i

end SeqMpsc

/-!
C5 and C6 concern all queue variants at once, so they live outside the
per-variant namespaces.
-/

/-- C5, counterexample to the original wording.  On the slot-seq MPSC
(src/mpsc/seq_mpsc.h lines 67-84) the empty-queue early return is commented
out (lines 70-72), so `pop` on an empty queue spins in the
`can_pop_slot` wait loop and never completes — in particular it never
returns `false`.  The model renders a non-completing spin as `none`: on a
fresh (empty) 4-slot queue `pop` yields `none`, not a `false`-style
completed result. -/
theorem seq_pop_empty_never_returns :
    SeqMpsc.pop 4 (SeqMpsc.init Nat 4 0) = none := by rfl

/-- C5 (amended).  A pop on an empty queue returns `false` without
modifying the state for the SPSC and sharded-MPSC variants; on the
slot-seq MPSC a pop on an empty queue does not return at all — it spins
(modelled as `none`) because the empty-queue check in the source is
commented out. -/
theorem pop_on_empty_all_variants {V : Type} [Inhabited V] {N m M : Nat}
    (hN : N = 2 ^ m) (hm : 1 ≤ m) (hM : 0 < M) (v0 : V) :
    (∀ st : Spsc.State V, Spsc.Reachable N v0 st → st.head = st.tail →
      Spsc.pop N st = (none, st)) ∧
    (∀ st : ShardedMpsc.State V, ShardedMpsc.Reachable N M v0 st →
      (∀ q ∈ st.queues, q.head = q.tail) →
      ShardedMpsc.pop N M st = (none, st)) ∧
    (∀ st : SeqMpsc.State V, SeqMpsc.Reachable N v0 st → st.size_ = 0 →
      SeqMpsc.pop N st = none) := by
  refine ⟨?_, ?_, ?_⟩
  · intro st hr he
    exact Spsc.pop_empty st (Spsc.reachable_WF hN v0 st hr) he
  · intro st hr hall
    obtain ⟨hlen, hwf⟩ := ShardedMpsc.sharded_reachable_WF hN hM v0 st hr
    have hspec := ShardedMpsc.popIter_spec hN hM st.consumer_round_robin M 0
      st.queues hlen hwf
    have hfind : (((List.range M).map
        (fun jj => (st.consumer_round_robin + 0 + jj) % M)).find?
          (fun idx => !(Spsc.emptyQ (st.queues.getD idx default))) = none) := by
      rw [List.find?_eq_none]
      intro x hx
      obtain ⟨jj, _, hxeq⟩ := List.mem_map.mp hx
      have hxlt : x < st.queues.length := by
        rw [hlen, ← hxeq]
        exact Nat.mod_lt _ hM
      have hq := hall _ (ShardedMpsc.getD_mem _ x default hxlt)
      rw [List.getD_eq_getElem?_getD] at hq
      simp [Spsc.emptyQ, hq]
    have hnone := hspec.1 hfind
    simp only [ShardedMpsc.pop, hnone]
  · intro st hr hempty
    exact SeqMpsc.pop_on_empty_spins hN st.expect_next st
      (SeqMpsc.reachable_TagInv hN hm v0 st hr) hempty

/-- C6.  A push on a full SPSC queue, and a sharded-MPSC push whose
producer's shard is full, return `false` and leave the whole state —
indices, caches, buffer contents and the shard array — unchanged. -/
theorem push_on_full_no_modification {V : Type} [Inhabited V] {N m M : Nat}
    (hN : N = 2 ^ m) (hM : 0 < M) (v0 : V) :
    (∀ st : Spsc.State V, Spsc.Reachable N v0 st → Spsc.isFull N st →
      ∀ v, Spsc.push N st v = (false, st)) ∧
    (∀ st : ShardedMpsc.State V, ShardedMpsc.Reachable N M v0 st →
      ∀ qid, qid < M → Spsc.isFull N (st.queues.getD qid default) →
      ∀ v, ShardedMpsc.push N st qid v = (false, st)) := by
  constructor
  · intro st hr hfull v
    exact Spsc.push_full hN st v (Spsc.reachable_WF hN v0 st hr) hfull
  · intro st hr qid hqid hfull v
    obtain ⟨hlen, hwf⟩ := ShardedMpsc.sharded_reachable_WF hN hM v0 st hr
    have hq : Spsc.WF N (st.queues.getD qid default) :=
      hwf _ (ShardedMpsc.getD_mem _ qid default (by omega))
    have hp := Spsc.push_full hN (st.queues.getD qid default) v hq hfull
    simp only [ShardedMpsc.push, hp]
    rw [ShardedMpsc.set_getD_self]

/-!
Compile-time checks (C9).  Each queue template guards its parameters with
`static_assert`s; we transcribe each guard as a Bool of the capacity and of
`std::is_trivially_copyable_v<T>` (a compile-time property of the element
type, passed as a Bool).
-/
namespace StaticChecks

/-- `IS_POWDER_OF_TWO(x) = (((x) & ((x) - 1)) == 0)` (src/utils/defs.h
line 27).  On `size_t`, `0 - 1` wraps to `2^64 - 1` and `0 & (2^64 - 1) = 0`;
Nat's truncated `0 - 1 = 0` gives the same AND, so this transcription agrees
with the macro on every representable capacity. -/
def IS_POWDER_OF_TWO (x : Nat) : Bool := (x &&& (x - 1)) == 0

/-- `IS_POWDER_OF_TWO_AND_GREATER_THAN_ZERO` (src/utils/defs.h
lines 28-29). -/
def IS_POWDER_OF_TWO_AND_GREATER_THAN_ZERO (x : Nat) : Bool :=
  IS_POWDER_OF_TWO x && decide (0 < x)

/-- The guards of `SPSCQueue` — identical in src/spsc.h lines 63-66 and
src/spsc/spsc.h lines 9-12: `Capacity >= 2 && (Capacity & (Capacity-1)) == 0`
and `std::is_trivially_copyable_v<T>`. -/
def spscAccepts (cap : Nat) (tc : Bool) : Bool :=
  (decide (2 ≤ cap) && ((cap &&& (cap - 1)) == 0)) && tc

/-- The guard of the sharded `MPSCQueue` (src/MPSC.h line 11) together with
the guards its member `std::array<SPSCQueue<T, Capacity, true, true>, M>`
(line 15) forces to be instantiated. -/
def shardedAccepts (cap : Nat) (tc : Bool) : Bool :=
  IS_POWDER_OF_TWO_AND_GREATER_THAN_ZERO cap && spscAccepts cap tc

/-- The sole guard of the slot-seq `MPSCQueue` (src/mpsc/seq_mpsc.h
line 15): `IS_POWDER_OF_TWO(Capacity)` — no lower bound on the capacity and
no trivially-copyable check on `T`. -/
def seqAccepts (cap : Nat) (_tc : Bool) : Bool := IS_POWDER_OF_TWO cap

/-- What the spec says every queue's compile-time check enforces: the ring
capacity is a power of two ≥ 2 and the element type is trivially
copyable. -/
def specAccepts (cap : Nat) (tc : Bool) : Prop :=
  (2 ≤ cap ∧ ∃ k, cap = 2 ^ k) ∧ tc = true

/-- `x & (x-1) == 0` holds exactly for `0` and the powers of two. -/
theorem land_pred_eq_zero_iff (x : Nat) :
    x &&& (x - 1) = 0 ↔ (x = 0 ∨ ∃ k, x = 2 ^ k) := by
  constructor
  · intro h
    rcases Nat.eq_zero_or_pos x with h0 | h0
    · exact Or.inl h0
    right
    refine ⟨x.log2, ?_⟩
    by_contra hne
    have h1 : 2 ^ x.log2 ≤ x := Nat.log2_self_le (by omega)
    have h2 : x < 2 ^ (x.log2 + 1) := Nat.lt_log2_self
    have hp : 2 ^ (x.log2 + 1) = 2 * 2 ^ x.log2 := by rw [Nat.pow_succ]; ring
    have hd1 : x / 2 ^ x.log2 = 1 := Nat.div_eq_of_lt_le (by omega) (by omega)
    have hd2 : (x - 1) / 2 ^ x.log2 = 1 :=
      Nat.div_eq_of_lt_le (by omega) (by omega)
    have ht1 : x.testBit x.log2 = true := by
      rw [Nat.testBit_to_div_mod, hd1]
      decide
    have ht2 : (x - 1).testBit x.log2 = true := by
      rw [Nat.testBit_to_div_mod, hd2]
      decide
    have hb : (x &&& (x - 1)).testBit x.log2 = true := by
      rw [Nat.testBit_land, ht1, ht2]
      rfl
    rw [h, Nat.zero_testBit] at hb
    exact Bool.false_ne_true hb
  · rintro (rfl | ⟨k, rfl⟩)
    · rfl
    · rw [Nat.and_pow_two_sub_one_eq_mod, Nat.mod_self]

/-- The SPSC guard accepts exactly the instantiations the spec allows. -/
theorem spscAccepts_iff (cap : Nat) (tc : Bool) :
    spscAccepts cap tc = true ↔ specAccepts cap tc := by
  simp only [spscAccepts, specAccepts, Bool.and_eq_true, decide_eq_true_eq,
    beq_iff_eq]
  constructor
  · rintro ⟨⟨h2, hz⟩, htc⟩
    rcases (land_pred_eq_zero_iff cap).mp hz with h0 | hk
    · omega
    · exact ⟨⟨h2, hk⟩, htc⟩
  · rintro ⟨⟨h2, hk⟩, htc⟩
    exact ⟨⟨h2, (land_pred_eq_zero_iff cap).mpr (Or.inr hk)⟩, htc⟩

/-- C9, counterexample to the original wording.  The slot-seq MPSC's only
static check is `IS_POWDER_OF_TWO(Capacity)`: it accepts a
non-trivially-copyable element type at capacity 4, and it accepts the
capacities 1 and 0 (`0 & (0-1) == 0` under `size_t` wrap-around), none of
which the claim says are accepted. -/
theorem seq_mpsc_static_check_counterexample :
    seqAccepts 4 false = true ∧ seqAccepts 1 true = true ∧
      seqAccepts 0 true = true := by decide

/-- C9 (amended).  The SPSC static checks (both headers) accept exactly the
spec-allowed instantiations — capacity a power of two ≥ 2 and trivially
copyable `T` — and the sharded MPSC inherits exactly the same acceptance
through its member SPSC array.  The slot-seq MPSC checks only
`Capacity & (Capacity - 1) == 0`: it accepts capacity 0 and 1 and any
element type. -/
theorem static_checks_characterization (cap : Nat) (tc : Bool) :
    (spscAccepts cap tc = true ↔ specAccepts cap tc) ∧
    (shardedAccepts cap tc = true ↔ specAccepts cap tc) ∧
    (seqAccepts cap tc = true ↔ (cap = 0 ∨ ∃ k, cap = 2 ^ k)) := by
  refine ⟨spscAccepts_iff cap tc, ?_, ?_⟩
  · simp only [shardedAccepts, Bool.and_eq_true]
    constructor
    · rintro ⟨_, hs⟩
      exact (spscAccepts_iff cap tc).mp hs
    · intro h
      refine ⟨?_, (spscAccepts_iff cap tc).mpr h⟩
      obtain ⟨⟨h2, k, hk⟩, _⟩ := h
      simp only [IS_POWDER_OF_TWO_AND_GREATER_THAN_ZERO, IS_POWDER_OF_TWO,
        Bool.and_eq_true, beq_iff_eq, decide_eq_true_eq]
      exact ⟨(land_pred_eq_zero_iff cap).mpr (Or.inr ⟨k, hk⟩), by omega⟩
  · simp only [seqAccepts, IS_POWDER_OF_TWO, beq_iff_eq]
    exact land_pred_eq_zero_iff cap

end StaticChecks

/-!
The stream reorderer of src/mpsc/mpsc_seq.cpp (`SeqMpsc::Reorderer`): a
worker drains a source MPSC and republishes the messages in sequence order.
`process_data` either emits a direct hit, drops a stale message, or stages
the message in a `fast_buffer_` of 1024 slots (hashed by `seq % 1024`) with
an `unordered_map` overflow for slot collisions; `try_output_ready_data`
then drains every consecutively-ready message.  The model is generic in the
fast-buffer size `B` (the source fixes `B = 1024`); the output SPSC is
modelled as the unbounded stream of messages `output_data` emits to it
(`output_data` spins until its push succeeds, so every emitted message
reaches the stream in emission order); the `unordered_map` is an
association list.
-/
namespace Reorderer

/-- `SeqMpsc::SeqData` (src/mpsc/mpsc_seq.cpp lines 15-18). -/
structure SeqData where
  seq : Nat
  payload : Nat
deriving Repr, DecidableEq

/-- `Reorderer::Slot` (src/mpsc/mpsc_seq.cpp lines 70-73). -/
structure Slot where
  valid : Bool
  data : SeqData
deriving Repr, DecidableEq

/-- The default-initialised slot: `valid = false`, zeroed data. -/
def slotDflt : Slot := ⟨false, ⟨0, 0⟩⟩

/-- Reorderer state: `fast_buffer_`, `overflow_buffer_` (as an association
list), `next_expected_seq_`, and the stream of messages emitted to the
output queue so far. -/
structure RState where
  fast : List Slot
  overflow : List (Nat × SeqData)
  next_expected_seq : Nat
  output : List SeqData
deriving Repr, DecidableEq

/-- A fresh reorderer with a `B`-slot fast buffer (src/mpsc/mpsc_seq.cpp
lines 74-76: all slots invalid, empty map, `next_expected_seq_ = 0`). -/
def initR (B : Nat) : RState := ⟨List.replicate B slotDflt, [], 0, []⟩

/-- `uint64_t` subtraction with wrap-around, as in the collision-distance
computation `slot.data.seq - next_expected_seq_`. -/
def u64sub (a b : Nat) : Nat := (2 ^ 64 + a - b) % 2 ^ 64

/-- `overflow_buffer_[k] = v` on the association list: assign the existing
entry, or insert a fresh one. -/
def mapInsert (m : List (Nat × SeqData)) (k : Nat) (v : SeqData) :
    List (Nat × SeqData) :=
  if (m.lookup k).isSome then
    m.map (fun p => if p.1 = k then (k, v) else p)
  else
    (k, v) :: m

/-- Termination measure of the drain loop: staged items in the fast buffer
plus staged items in the overflow map. -/
def measureR (st : RState) : Nat :=
  st.fast.countP (fun s => s.valid) + st.overflow.length

theorem getD_valid_lt (l : List Slot) (i : Nat)
    (h : (l.getD i slotDflt).valid = true) : i < l.length := by
  by_contra hge
  rw [List.getD_eq_default _ _ (by omega)] at h
  exact Bool.false_ne_true h

theorem list_decomp {α : Type} (l : List α) (i : Nat) (d : α)
    (h : i < l.length) :
    l = l.take i ++ l.getD i d :: l.drop (i + 1) := by
  rw [List.getD_eq_getElem?_getD, List.getElem?_eq_getElem h]
  conv_lhs => rw [← List.take_append_drop i l]
  rw [List.drop_eq_getElem_cons h]
  rfl

theorem set_decomp {α : Type} (l : List α) (i : Nat) (x : α)
    (h : i < l.length) :
    l.set i x = l.take i ++ x :: l.drop (i + 1) := by
  rw [List.set_eq_take_append_cons_drop, if_pos h]

theorem countP_set_invalid (l : List Slot) (i : Nat) (d : SeqData)
    (h : i < l.length) (hv : (l.getD i slotDflt).valid = true) :
    (l.set i ⟨false, d⟩).countP (fun s => s.valid) <
      l.countP (fun s => s.valid) := by
  rw [set_decomp l i _ h]
  conv_rhs => rw [list_decomp l i slotDflt h]
  simp only [List.countP_append, List.countP_cons, hv]
  simp

theorem lookup_mem (l : List (Nat × SeqData)) (k : Nat) (v : SeqData)
    (h : l.lookup k = some v) : (k, v) ∈ l := by
  induction l with
  | nil => simp [List.lookup] at h
  | cons p t ih =>
    rw [List.lookup] at h
    by_cases he : k = p.1
    · rw [show (k == p.1) = true from beq_iff_eq.mpr he] at h
      have h2 : some p.2 = some v := h
      injection h2 with h3
      subst h3
      rw [he]
      exact List.mem_cons_self _ _
    · rw [show (k == p.1) = false from beq_eq_false_iff_ne.mpr he] at h
      have h2 : List.lookup k t = some v := h
      exact List.mem_cons_of_mem _ (ih h2)

theorem lookup_none_not_mem (l : List (Nat × SeqData)) (k : Nat)
    (h : l.lookup k = none) : k ∉ l.map Prod.fst := by
  induction l with
  | nil => simp
  | cons p t ih =>
    rw [List.lookup] at h
    by_cases he : k = p.1
    · rw [show (k == p.1) = true from beq_iff_eq.mpr he] at h
      have h2 : some p.2 = none := h
      exact absurd h2 (by simp)
    · rw [show (k == p.1) = false from beq_eq_false_iff_ne.mpr he] at h
      have h2 : List.lookup k t = none := h
      simp only [List.map_cons, List.mem_cons]
      rintro (h3 | h3)
      · exact he h3
      · exact ih h2 h3

theorem not_mem_lookup_none (l : List (Nat × SeqData)) (k : Nat)
    (h : k ∉ l.map Prod.fst) : l.lookup k = none := by
  cases hlk : l.lookup k with
  | none => rfl
  | some v =>
    have := lookup_mem l k v hlk
    exact absurd (List.mem_map.mpr ⟨(k, v), this, rfl⟩) h

theorem mapInsert_fresh (m : List (Nat × SeqData)) (k : Nat) (v : SeqData)
    (h : k ∉ m.map Prod.fst) : mapInsert m k v = (k, v) :: m := by
  rw [mapInsert, not_mem_lookup_none m k h]
  rfl

theorem length_filter_out_key (l : List (Nat × SeqData)) (k : Nat) (v : SeqData)
    (h : (k, v) ∈ l) :
    (l.filter (fun p => !(p.1 == k))).length < l.length := by
  exact List.length_filter_lt_length_iff_exists.mpr ⟨(k, v), h, by simp⟩

/-- `try_output_ready_data` (src/mpsc/mpsc_seq.cpp lines 152-181): while a
message with the expected sequence is staged — fast slot `next % B` first,
overflow map second — emit it, unstage it, and advance `next_expected_seq_`.
Terminates because every emission unstages one message. -/
def tryOutput (B : Nat) (st : RState) : RState :=
  if hv : (st.fast.getD (st.next_expected_seq % B) slotDflt).valid = true ∧
      (st.fast.getD (st.next_expected_seq % B) slotDflt).data.seq =
        st.next_expected_seq then
    tryOutput B
      { st with
        fast := st.fast.set (st.next_expected_seq % B)
          ⟨false, (st.fast.getD (st.next_expected_seq % B) slotDflt).data⟩,
        next_expected_seq := st.next_expected_seq + 1,
        output := st.output ++
          [(st.fast.getD (st.next_expected_seq % B) slotDflt).data] }
  else
    match hov : st.overflow.lookup st.next_expected_seq with
    | some v =>
      tryOutput B
        { st with
          overflow := st.overflow.filter
            (fun p => !(p.1 == st.next_expected_seq)),
          next_expected_seq := st.next_expected_seq + 1,
          output := st.output ++ [v] }
    | none => st
termination_by measureR st
decreasing_by
  · simp only [measureR]
    have hlt := getD_valid_lt _ _ hv.1
    have := countP_set_invalid st.fast (st.next_expected_seq % B)
      (st.fast.getD (st.next_expected_seq % B) slotDflt).data hlt hv.1
    omega
  · simp only [measureR]
    have := length_filter_out_key st.overflow st.next_expected_seq v
      (lookup_mem _ _ _ hov)
    omega

/-- `process_data` (src/mpsc/mpsc_seq.cpp lines 106-143): direct hit →
emit, advance, drain; stale (`seq < next_expected`) → drop; otherwise stage
in fast slot `seq % B`, resolving a collision between distinct sequences by
keeping the one closer (in wrap-around `uint64` distance) to
`next_expected_seq_` and moving the other to the overflow map. -/
def processData (B : Nat) (st : RState) (d : SeqData) : RState :=
  if d.seq = st.next_expected_seq then
    tryOutput B
      { st with
        output := st.output ++ [d],
        next_expected_seq := st.next_expected_seq + 1 }
  else if d.seq < st.next_expected_seq then
    st
  else
    if (st.fast.getD (d.seq % B) slotDflt).valid = false then
      { st with fast := st.fast.set (d.seq % B) ⟨true, d⟩ }
    else if (st.fast.getD (d.seq % B) slotDflt).data.seq ≠ d.seq then
      if u64sub d.seq st.next_expected_seq <
          u64sub (st.fast.getD (d.seq % B) slotDflt).data.seq
            st.next_expected_seq then
        { st with
          overflow := mapInsert st.overflow
            (st.fast.getD (d.seq % B) slotDflt).data.seq
            (st.fast.getD (d.seq % B) slotDflt).data,
          fast := st.fast.set (d.seq % B) ⟨true, d⟩ }
      else
        { st with overflow := mapInsert st.overflow d.seq d }
    else
      st

/-- One iteration of `reorder_work` (src/mpsc/mpsc_seq.cpp lines 92-102)
after a successful source pop: `process_data(data)` then
`try_output_ready_data()`. -/
def step (B : Nat) (st : RState) (d : SeqData) : RState :=
  tryOutput B (processData B st d)

/-- The reorderer worker run on a list of arrivals. -/
def runR (B : Nat) (st : RState) (ds : List SeqData) : RState :=
  ds.foldl (step B) st

/-- The sequence numbers currently staged: valid fast slots plus overflow
keys. -/
def stagedSeqs (st : RState) : List Nat :=
  (st.fast.filter (fun s => s.valid)).map (fun s => s.data.seq) ++
    st.overflow.map Prod.fst

/-- Reorderer invariant against the multiset `A` of already-processed
sequence numbers: the fast buffer keeps its size; the emitted stream is
exactly `0, 1, …, next_expected_seq - 1` in order; every already-passed
sequence has arrived; a valid fast slot `i` holds a sequence hashing to
`i`; overflow entries are keyed by their own sequence; and the staged
sequences are exactly the arrived ones that are not yet emitted. -/
def Inv (B : Nat) (A : List Nat) (st : RState) : Prop :=
  st.fast.length = B ∧
  st.output.map (fun d => d.seq) = List.range st.next_expected_seq ∧
  (∀ t, t < st.next_expected_seq → t ∈ A) ∧
  (∀ i, i < B → (st.fast.getD i slotDflt).valid = true →
    (st.fast.getD i slotDflt).data.seq % B = i) ∧
  (∀ p ∈ st.overflow, p.2.seq = p.1) ∧
  List.Perm (stagedSeqs st) (A.filter (fun s => st.next_expected_seq ≤ s))

/-- Neither staging area holds the expected sequence: the exit condition of
the drain loop. -/
def notReady (B : Nat) (st : RState) : Prop :=
  ¬((st.fast.getD (st.next_expected_seq % B) slotDflt).valid = true ∧
    (st.fast.getD (st.next_expected_seq % B) slotDflt).data.seq =
      st.next_expected_seq) ∧
  st.overflow.lookup st.next_expected_seq = none

theorem initR_Inv (B : Nat) : Inv B [] (initR B) := by
  refine ⟨List.length_replicate .., rfl,
    fun t ht => absurd ht (Nat.not_lt_zero t), ?_, by simp [initR], ?_⟩
  · intro i hi hv
    rw [initR] at hv
    simp only at hv
    rw [List.getD_eq_getElem?_getD, List.getElem?_replicate] at hv
    rw [if_pos (by simpa [initR] using hi)] at hv
    exact absurd hv (by simp [slotDflt])
  · show List.Perm (stagedSeqs (initR B)) _
    simp [stagedSeqs, initR, List.filter_replicate, slotDflt]

theorem filter_ge_succ_perm (A : List Nat) (hA : A.Nodup) (n : Nat)
    (hn : n ∈ A) :
    List.Perm (A.filter (fun s => n ≤ s)) (n :: A.filter (fun s => n + 1 ≤ s)) := by
  induction A with
  | nil => simp at hn
  | cons a t ih =>
    rw [List.filter_cons, List.filter_cons]
    rcases List.mem_cons.mp hn with he | hmem
    · subst he
      rw [if_pos (by simp), if_neg (by simp)]
      have hnot : n ∉ t := (List.nodup_cons.mp hA).1
      have hfe : t.filter (fun s => n ≤ s) = t.filter (fun s => n + 1 ≤ s) :=
        List.filter_congr (fun x hx => by
          have hxn : x ≠ n := fun he2 => hnot (he2 ▸ hx)
          exact decide_eq_decide.mpr (by omega))
      rw [hfe]
    · have ih2 := ih (List.nodup_cons.mp hA).2 hmem
      have hne : a ≠ n := fun he2 => (List.nodup_cons.mp hA).1 (he2 ▸ hmem)
      by_cases hge : n ≤ a
      · rw [if_pos (by simpa using hge), if_pos (by simpa using (by omega : n + 1 ≤ a))]
        exact (ih2.cons a).trans (List.Perm.swap n a _)
      · rw [if_neg (by simpa using hge), if_neg (by simpa using (by omega : ¬(n + 1 ≤ a)))]
        exact ih2

theorem erase_key_perm (l : List (Nat × SeqData)) (k : Nat)
    (hnd : (l.map Prod.fst).Nodup) (hk : k ∈ l.map Prod.fst) :
    List.Perm (l.map Prod.fst)
      (k :: (l.filter (fun p => !(p.1 == k))).map Prod.fst) := by
  induction l with
  | nil => simp at hk
  | cons p t ih =>
    simp only [List.map_cons, List.nodup_cons] at hnd
    rw [List.map_cons] at hk
    rw [List.map_cons, List.filter_cons]
    rcases List.mem_cons.mp hk with he | hmem
    · rw [if_neg (by simp [he])]
      have hfe : t.filter (fun q => !(q.1 == k)) = t := by
        refine List.filter_eq_self.mpr (fun q hq => ?_)
        have hqk : q.1 ≠ k := by
          intro he2
          refine hnd.1 ?_
          rw [← he, ← he2]
          exact List.mem_map.mpr ⟨q, hq, rfl⟩
        simp [hqk]
      rw [hfe, he]
    · have hne : p.1 ≠ k := fun he2 => hnd.1 (he2 ▸ hmem)
      rw [if_pos (by simp [hne])]
      have ih2 := ih hnd.2 hmem
      rw [List.map_cons]
      exact (ih2.cons p.1).trans (List.Perm.swap k p.1 _)

/-- The staged sequence numbers of the fast buffer. -/
def fastSeqs (l : List Slot) : List Nat :=
  (l.filter (fun s => s.valid)).map (fun s => s.data.seq)

theorem fastSeqs_parts_valid (l : List Slot) (i : Nat) (h : i < l.length)
    (hv : (l.getD i slotDflt).valid = true) :
    fastSeqs l = fastSeqs (l.take i) ++
      (l.getD i slotDflt).data.seq :: fastSeqs (l.drop (i + 1)) := by
  rw [List.getD_eq_getElem?_getD] at hv
  conv_lhs => rw [list_decomp l i slotDflt h]
  simp [fastSeqs, List.filter_append, List.filter_cons, List.getD_eq_getElem?_getD, hv]

theorem fastSeqs_parts_invalid (l : List Slot) (i : Nat) (h : i < l.length)
    (hv : (l.getD i slotDflt).valid = false) :
    fastSeqs l = fastSeqs (l.take i) ++ fastSeqs (l.drop (i + 1)) := by
  rw [List.getD_eq_getElem?_getD] at hv
  conv_lhs => rw [list_decomp l i slotDflt h]
  simp [fastSeqs, List.filter_append, List.filter_cons, List.getD_eq_getElem?_getD, hv]

theorem fastSeqs_set_valid (l : List Slot) (i : Nat) (h : i < l.length)
    (x : Slot) (hx : x.valid = true) :
    fastSeqs (l.set i x) = fastSeqs (l.take i) ++
      x.data.seq :: fastSeqs (l.drop (i + 1)) := by
  rw [set_decomp l i x h]
  simp [fastSeqs, List.filter_append, List.filter_cons, hx]

theorem fastSeqs_set_invalid (l : List Slot) (i : Nat) (h : i < l.length)
    (x : Slot) (hx : x.valid = false) :
    fastSeqs (l.set i x) = fastSeqs (l.take i) ++ fastSeqs (l.drop (i + 1)) := by
  rw [set_decomp l i x h]
  simp [fastSeqs, List.filter_append, List.filter_cons, hx]

theorem stagedSeqs_eq (st : RState) :
    stagedSeqs st = fastSeqs st.fast ++ st.overflow.map Prod.fst := rfl

theorem tryOutput_notReady (B : Nat) (st : RState) :
    notReady B (tryOutput B st) := by
  generalize hn : measureR st = n
  induction n using Nat.strong_induction_on generalizing st with
  | _ n ih =>
    rw [tryOutput]
    split
    case isTrue hv =>
      refine ih _ ?_ _ rfl
      subst hn
      simp only [measureR]
      have hlt := getD_valid_lt _ _ hv.1
      have := countP_set_invalid st.fast (st.next_expected_seq % B)
        (st.fast.getD (st.next_expected_seq % B) slotDflt).data hlt hv.1
      omega
    case isFalse hv =>
      split
      case h_1 v hov =>
        refine ih _ ?_ _ rfl
        subst hn
        simp only [measureR]
        have := length_filter_out_key st.overflow st.next_expected_seq v
          (lookup_mem _ _ _ hov)
        omega
      case h_2 hov =>
        exact ⟨hv, hov⟩

theorem notReady_staged (B : Nat) (st : RState) (hB : 0 < B)
    (hlen : st.fast.length = B)
    (hcong : ∀ i, i < B → (st.fast.getD i slotDflt).valid = true →
      (st.fast.getD i slotDflt).data.seq % B = i)
    (hnr : notReady B st) : st.next_expected_seq ∉ stagedSeqs st := by
  intro hmem
  rcases List.mem_append.mp hmem with hf | ho
  · obtain ⟨s, hsf, hseq⟩ := List.mem_map.mp hf
    have hs := List.mem_filter.mp hsf
    obtain ⟨i, hilt, hie⟩ := List.getElem_of_mem hs.1
    have hgetd : st.fast.getD i slotDflt = s := by
      rw [List.getD_eq_getElem?_getD, List.getElem?_eq_getElem hilt, hie]
      rfl
    have hiB : i < B := by omega
    have hvald : (st.fast.getD i slotDflt).valid = true := by rw [hgetd]; exact hs.2
    have hidx := hcong i hiB hvald
    rw [hgetd, hseq] at hidx
    refine hnr.1 ?_
    rw [hidx, hgetd]
    exact ⟨hs.2, hseq⟩
  · exact lookup_none_not_mem _ _ hnr.2 ho

theorem tryOutput_Inv (B : Nat) (A : List Nat) (hA : A.Nodup) :
    ∀ st, Inv B A st → Inv B A (tryOutput B st) := by
  suffices h : ∀ n st, measureR st = n → Inv B A st → Inv B A (tryOutput B st) by
    exact fun st hI => h (measureR st) st rfl hI
  intro n
  induction n using Nat.strong_induction_on with
  | _ n ih =>
    intro st hn hInv
    obtain ⟨hlen, hout, hsub, hcong, hkey, hstag⟩ := hInv
    rw [tryOutput]
    split
    case isTrue hv =>
      have hvald := hv.1
      have hseq := hv.2
      have hilt : st.next_expected_seq % B < st.fast.length :=
        getD_valid_lt _ _ hvald
      have hmemS : st.next_expected_seq ∈ stagedSeqs st := by
        rw [stagedSeqs_eq,
          fastSeqs_parts_valid st.fast _ hilt hvald, hseq]
        simp
      have hmemA : st.next_expected_seq ∈ A :=
        (List.mem_filter.mp (hstag.mem_iff.mp hmemS)).1
      have hdecompS : stagedSeqs st =
          fastSeqs (st.fast.take (st.next_expected_seq % B)) ++
            st.next_expected_seq ::
              (fastSeqs (st.fast.drop (st.next_expected_seq % B + 1)) ++
                st.overflow.map Prod.fst) := by
        rw [stagedSeqs_eq, fastSeqs_parts_valid st.fast _ hilt hvald, hseq,
          List.append_assoc]
        rfl
      have hperm1 : List.Perm (stagedSeqs st)
          (st.next_expected_seq ::
            (fastSeqs (st.fast.take (st.next_expected_seq % B)) ++
              (fastSeqs (st.fast.drop (st.next_expected_seq % B + 1)) ++
                st.overflow.map Prod.fst))) := by
        rw [hdecompS]
        exact List.perm_middle
      have hpermF := filter_ge_succ_perm A hA st.next_expected_seq hmemA
      have hcore := List.Perm.cons_inv
        ((hperm1.symm.trans hstag).trans hpermF)
      refine ih (measureR { st with
          fast := st.fast.set (st.next_expected_seq % B)
            ⟨false, (st.fast.getD (st.next_expected_seq % B) slotDflt).data⟩,
          next_expected_seq := st.next_expected_seq + 1,
          output := st.output ++
            [(st.fast.getD (st.next_expected_seq % B) slotDflt).data] })
        ?_ _ rfl ⟨?_, ?_, ?_, ?_, ?_, ?_⟩
      · subst hn
        simp only [measureR]
        have := countP_set_invalid st.fast (st.next_expected_seq % B)
          (st.fast.getD (st.next_expected_seq % B) slotDflt).data hilt hvald
        omega
      · show (st.fast.set _ _).length = B
        rw [List.length_set]
        exact hlen
      · show (st.output ++
            [(st.fast.getD (st.next_expected_seq % B) slotDflt).data]).map
              (fun d => d.seq) = List.range (st.next_expected_seq + 1)
        rw [List.map_append, hout, List.range_succ]
        rw [List.getD_eq_getElem?_getD] at hseq
        simp [hseq]
      · intro t ht
        have ht2 : t < st.next_expected_seq + 1 := ht
        rcases Nat.lt_or_ge t st.next_expected_seq with h2 | h2
        · exact hsub t h2
        · have : t = st.next_expected_seq := by omega
          rw [this]
          exact hmemA
      · intro j hj hval
        by_cases hji : j = st.next_expected_seq % B
        · subst hji
          rw [Spsc.getD_set_self _ _ _ _ hilt] at hval
          exact absurd hval (by simp)
        · rw [Spsc.getD_set_ne _ _ _ _ _ (fun he => hji he.symm)] at hval ⊢
          exact hcong j hj hval
      · exact hkey
      · show List.Perm
          (stagedSeqs { st with
            fast := st.fast.set (st.next_expected_seq % B)
              ⟨false, (st.fast.getD (st.next_expected_seq % B) slotDflt).data⟩,
            next_expected_seq := st.next_expected_seq + 1,
            output := st.output ++
              [(st.fast.getD (st.next_expected_seq % B) slotDflt).data] })
          (A.filter (fun s => st.next_expected_seq + 1 ≤ s))
        show List.Perm
          (fastSeqs (st.fast.set (st.next_expected_seq % B)
              ⟨false, (st.fast.getD (st.next_expected_seq % B) slotDflt).data⟩) ++
            st.overflow.map Prod.fst)
          (A.filter (fun s => st.next_expected_seq + 1 ≤ s))
        rw [fastSeqs_set_invalid st.fast _ hilt _ rfl, List.append_assoc]
        exact hcore
    case isFalse hv =>
      split
      case h_1 v hov =>
        have hkv : (st.next_expected_seq, v) ∈ st.overflow :=
          lookup_mem _ _ _ hov
        have hvseq : v.seq = st.next_expected_seq := hkey _ hkv
        have hmemK : st.next_expected_seq ∈ st.overflow.map Prod.fst :=
          List.mem_map.mpr ⟨_, hkv, rfl⟩
        have hmemS : st.next_expected_seq ∈ stagedSeqs st := by
          rw [stagedSeqs_eq]
          exact List.mem_append_right _ hmemK
        have hmemA : st.next_expected_seq ∈ A :=
          (List.mem_filter.mp (hstag.mem_iff.mp hmemS)).1
        have hnostag : (stagedSeqs st).Nodup :=
          hstag.symm.nodup (hA.filter _)
        have hknd : (st.overflow.map Prod.fst).Nodup := by
          rw [stagedSeqs_eq] at hnostag
          exact ((List.nodup_append.mp hnostag).2).1
        have hKperm := erase_key_perm st.overflow st.next_expected_seq hknd hmemK
        have hperm1 : List.Perm (stagedSeqs st)
            (st.next_expected_seq ::
              (fastSeqs st.fast ++
                (st.overflow.filter
                  (fun p => !(p.1 == st.next_expected_seq))).map Prod.fst)) := by
          rw [stagedSeqs_eq]
          exact (List.Perm.append_left _ hKperm).trans List.perm_middle
        have hpermF := filter_ge_succ_perm A hA st.next_expected_seq hmemA
        have hcore := List.Perm.cons_inv
          ((hperm1.symm.trans hstag).trans hpermF)
        refine ih (measureR { st with
            overflow := st.overflow.filter
              (fun p => !(p.1 == st.next_expected_seq)),
            next_expected_seq := st.next_expected_seq + 1,
            output := st.output ++ [v] }) ?_ _ rfl ⟨?_, ?_, ?_, ?_, ?_, ?_⟩
        · subst hn
          simp only [measureR]
          have := length_filter_out_key st.overflow st.next_expected_seq v hkv
          omega
        · exact hlen
        · show (st.output ++ [v]).map (fun d => d.seq) =
            List.range (st.next_expected_seq + 1)
          rw [List.map_append, hout, List.range_succ]
          simp [hvseq]
        · intro t ht
          have ht2 : t < st.next_expected_seq + 1 := ht
          rcases Nat.lt_or_ge t st.next_expected_seq with h2 | h2
          · exact hsub t h2
          · have : t = st.next_expected_seq := by omega
            rw [this]
            exact hmemA
        · exact hcong
        · intro p hp
          exact hkey p (List.mem_of_mem_filter hp)
        · show List.Perm
            (fastSeqs st.fast ++
              (st.overflow.filter
                (fun p => !(p.1 == st.next_expected_seq))).map Prod.fst)
            (A.filter (fun s => st.next_expected_seq + 1 ≤ s))
          exact hcore
      case h_2 hov =>
        exact ⟨hlen, hout, hsub, hcong, hkey, hstag⟩

theorem step_Inv (B : Nat) (hB : 0 < B) (A : List Nat) (st : RState)
    (d : SeqData) (hA2 : (A ++ [d.seq]).Nodup) (hInv : Inv B A st) :
    Inv B (A ++ [d.seq]) (step B st d) := by
  obtain ⟨hlen, hout, hsub, hcong, hkey, hstag⟩ := hInv
  have hA : A.Nodup := (List.nodup_append.mp hA2).1
  have hnew : d.seq ∉ A := by
    intro hmem
    exact (List.nodup_append.mp hA2).2.2 hmem (by simp)
  by_cases hdq : d.seq = st.next_expected_seq
  · -- direct hit: emit d, advance, drain (twice: once inside process_data,
    -- once from the worker loop)
    rw [step, processData, if_pos hdq]
    have hAfe : A.filter (fun s => st.next_expected_seq ≤ s) =
        A.filter (fun s => st.next_expected_seq + 1 ≤ s) := by
      refine List.filter_congr (fun x hx => ?_)
      have hxn : x ≠ st.next_expected_seq := fun he => hnew (hdq ▸ he ▸ hx)
      exact decide_eq_decide.mpr (by omega)
    refine tryOutput_Inv B _ hA2 _ (tryOutput_Inv B _ hA2 _
      ⟨hlen, ?_, ?_, hcong, hkey, ?_⟩)
    · show (st.output ++ [d]).map (fun x => x.seq) =
        List.range (st.next_expected_seq + 1)
      rw [List.map_append, hout, List.range_succ]
      simp [hdq]
    · intro t ht
      have ht2 : t < st.next_expected_seq + 1 := ht
      rcases Nat.lt_or_ge t st.next_expected_seq with h2 | h2
      · exact List.mem_append_left _ (hsub t h2)
      · have : t = d.seq := by omega
        rw [this]
        exact List.mem_append_right _ (by simp)
    · show List.Perm (stagedSeqs st)
        ((A ++ [d.seq]).filter (fun s => st.next_expected_seq + 1 ≤ s))
      rw [List.filter_append]
      have hsing : [d.seq].filter (fun s => st.next_expected_seq + 1 ≤ s) = [] := by
        rw [List.filter_cons]
        rw [if_neg (by simp [hdq])]
        rfl
      rw [hsing, List.append_nil, ← hAfe]
      exact hstag
  · by_cases hdlt : d.seq < st.next_expected_seq
    · exact absurd (hsub _ hdlt) hnew
    · -- staging: d.seq > next_expected_seq
      have hgt : st.next_expected_seq < d.seq := by omega
      have hilt : d.seq % B < st.fast.length := by
        rw [hlen]
        exact Nat.mod_lt _ hB
      have hAfilt : (A ++ [d.seq]).filter (fun s => st.next_expected_seq ≤ s) =
          A.filter (fun s => st.next_expected_seq ≤ s) ++ [d.seq] := by
        rw [List.filter_append]
        congr 1
        rw [List.filter_cons, if_pos (by simp; omega)]
        rfl
      have hAtail : List.Perm
          (d.seq :: A.filter (fun s => st.next_expected_seq ≤ s))
          ((A ++ [d.seq]).filter (fun s => st.next_expected_seq ≤ s)) := by
        rw [hAfilt]
        exact (List.perm_append_singleton _ _).symm
      rw [step, processData, if_neg hdq, if_neg hdlt]
      by_cases hsl : (st.fast.getD (d.seq % B) slotDflt).valid = false
      · -- empty slot: claim it
        rw [if_pos hsl]
        have hFset := fastSeqs_set_valid st.fast (d.seq % B) hilt ⟨true, d⟩ rfl
        have hFparts := fastSeqs_parts_invalid st.fast (d.seq % B) hilt hsl
        refine tryOutput_Inv B _ hA2 _ ⟨?_, hout, ?_, ?_, hkey, ?_⟩
        · show (st.fast.set _ _).length = B
          rw [List.length_set]
          exact hlen
        · intro t ht
          exact List.mem_append_left _ (hsub t ht)
        · intro j hj hval
          by_cases hji : j = d.seq % B
          · subst hji
            rw [Spsc.getD_set_self _ _ _ _ hilt]
          · rw [Spsc.getD_set_ne _ _ _ _ _ (fun he => hji he.symm)] at hval ⊢
            exact hcong j hj hval
        · show List.Perm
            (fastSeqs (st.fast.set (d.seq % B) ⟨true, d⟩) ++
              st.overflow.map Prod.fst)
            ((A ++ [d.seq]).filter (fun s => st.next_expected_seq ≤ s))
          rw [hFset, List.append_assoc]
          have h2 : stagedSeqs st =
              fastSeqs (st.fast.take (d.seq % B)) ++
                (fastSeqs (st.fast.drop (d.seq % B + 1)) ++
                  st.overflow.map Prod.fst) := by
            rw [stagedSeqs_eq, hFparts, List.append_assoc]
          refine List.perm_middle.trans ?_
          refine (List.Perm.cons d.seq (h2 ▸ hstag)).trans hAtail
      · rw [if_neg hsl]
        have hslv : (st.fast.getD (d.seq % B) slotDflt).valid = true := by
          revert hsl
          cases (st.fast.getD (d.seq % B) slotDflt).valid <;> simp
        have hFparts := fastSeqs_parts_valid st.fast (d.seq % B) hilt hslv
        have h2 : stagedSeqs st =
            fastSeqs (st.fast.take (d.seq % B)) ++
              (st.fast.getD (d.seq % B) slotDflt).data.seq ::
                (fastSeqs (st.fast.drop (d.seq % B + 1)) ++
                  st.overflow.map Prod.fst) := by
          rw [stagedSeqs_eq, hFparts, List.append_assoc]
          rfl
        have hmemSt : (st.fast.getD (d.seq % B) slotDflt).data.seq ∈
            stagedSeqs st := by
          rw [h2]
          simp
        have htA : (st.fast.getD (d.seq % B) slotDflt).data.seq ∈ A :=
          (List.mem_filter.mp (hstag.mem_iff.mp hmemSt)).1
        by_cases hne : (st.fast.getD (d.seq % B) slotDflt).data.seq ≠ d.seq
        · rw [if_pos hne]
          have hnostag : (stagedSeqs st).Nodup := hstag.symm.nodup (hA.filter _)
          have hstperm : List.Perm (stagedSeqs st)
              ((st.fast.getD (d.seq % B) slotDflt).data.seq ::
                (fastSeqs (st.fast.take (d.seq % B)) ++
                  (fastSeqs (st.fast.drop (d.seq % B + 1)) ++
                    st.overflow.map Prod.fst))) := by
            rw [h2]
            exact List.perm_middle
          have htnotK : (st.fast.getD (d.seq % B) slotDflt).data.seq ∉
              st.overflow.map Prod.fst := by
            have hnd2 := hstperm.nodup hnostag
            have := (List.nodup_cons.mp hnd2).1
            intro hm
            exact this (List.mem_append_right _ (List.mem_append_right _ hm))
          have hDnotK : d.seq ∉ st.overflow.map Prod.fst := by
            intro hm
            refine hnew ?_
            have hmS : d.seq ∈ stagedSeqs st := by
              rw [stagedSeqs_eq]
              exact List.mem_append_right _ hm
            exact (List.mem_filter.mp (hstag.mem_iff.mp hmS)).1
          by_cases hdist : u64sub d.seq st.next_expected_seq <
              u64sub (st.fast.getD (d.seq % B) slotDflt).data.seq
                st.next_expected_seq
          · -- new datum wins the slot; old one moves to overflow
            rw [if_pos hdist, mapInsert_fresh _ _ _ htnotK]
            have hFset := fastSeqs_set_valid st.fast (d.seq % B) hilt ⟨true, d⟩ rfl
            refine tryOutput_Inv B _ hA2 _ ⟨?_, hout, ?_, ?_, ?_, ?_⟩
            · show (st.fast.set _ _).length = B
              rw [List.length_set]
              exact hlen
            · intro t ht
              exact List.mem_append_left _ (hsub t ht)
            · intro j hj hval
              by_cases hji : j = d.seq % B
              · subst hji
                rw [Spsc.getD_set_self _ _ _ _ hilt]
              · rw [Spsc.getD_set_ne _ _ _ _ _ (fun he => hji he.symm)] at hval ⊢
                exact hcong j hj hval
            · intro p hp
              rcases List.mem_cons.mp hp with he | hm
              · rw [he]
              · exact hkey p hm
            · show List.Perm
                (fastSeqs (st.fast.set (d.seq % B) ⟨true, d⟩) ++
                  ((st.fast.getD (d.seq % B) slotDflt).data.seq ::
                    st.overflow.map Prod.fst))
                ((A ++ [d.seq]).filter (fun s => st.next_expected_seq ≤ s))
              rw [hFset, List.append_assoc]
              refine List.perm_middle.trans ?_
              refine (List.Perm.cons d.seq ?_).trans hAtail
              refine (List.Perm.trans ?_ (hstperm.symm.trans hstag))
              exact (List.Perm.append_left _ List.perm_middle).trans
                List.perm_middle
          · -- old datum keeps the slot; new one goes to overflow
            rw [if_neg hdist, mapInsert_fresh _ _ _ hDnotK]
            refine tryOutput_Inv B _ hA2 _ ⟨hlen, hout, ?_, hcong, ?_, ?_⟩
            · intro t ht
              exact List.mem_append_left _ (hsub t ht)
            · intro p hp
              rcases List.mem_cons.mp hp with he | hm
              · rw [he]
              · exact hkey p hm
            · show List.Perm
                (fastSeqs st.fast ++ (d.seq :: st.overflow.map Prod.fst))
                ((A ++ [d.seq]).filter (fun s => st.next_expected_seq ≤ s))
              refine List.perm_middle.trans ?_
              exact (List.Perm.cons d.seq hstag).trans hAtail
        · -- duplicate of a staged sequence: impossible for distinct arrivals
          rw [Decidable.not_not] at hne
          exact absurd (hne ▸ htA) hnew

theorem runR_Inv (B : Nat) (hB : 0 < B) :
    ∀ (ds : List SeqData) (A : List Nat) (st : RState),
      (A ++ ds.map (fun x => x.seq)).Nodup → Inv B A st →
      Inv B (A ++ ds.map (fun x => x.seq)) (runR B st ds) := by
  intro ds
  induction ds with
  | nil =>
    intro A st h hI
    simpa using hI
  | cons d rest ih =>
    intro A st hnd hI
    have h1 : ((A ++ [d.seq]) ++ rest.map (fun x => x.seq)).Nodup := by
      simpa [List.append_assoc] using hnd
    have h2 := step_Inv B hB A st d (List.nodup_append.mp h1).1 hI
    have h3 := ih (A ++ [d.seq]) (step B st d) h1 h2
    have hre : A ++ (d :: rest).map (fun x => x.seq) =
        (A ++ [d.seq]) ++ rest.map (fun x => x.seq) := by
      simp [List.append_assoc]
    rw [hre]
    exact h3

/-- C1.  Run the reorderer worker over any arrival order of the sequence
numbers `0 … K-1` (one message per sequence): the stream it emits to the
output queue is exactly `0, 1, …, K-1` in ascending order — no duplicate
and no dropped sequence — and at every intermediate point of the run the
emitted stream is `0, 1, …, n-1` for some `n`, so every emitted message's
sequence number is exactly one greater than its predecessor's.  Generic in
the fast-buffer size `B > 0`; the source instantiates `B = 1024`. -/
theorem reorderer_in_order_output (B K : Nat) (hB : 0 < B)
    (ds : List SeqData)
    (hperm : List.Perm (ds.map (fun x => x.seq)) (List.range K)) :
    ((runR B (initR B) ds).output.map (fun x => x.seq) = List.range K) ∧
    (∀ j, j + 1 < (runR B (initR B) ds).output.length →
      ((runR B (initR B) ds).output.getD (j + 1) ⟨0, 0⟩).seq =
        ((runR B (initR B) ds).output.getD j ⟨0, 0⟩).seq + 1) ∧
    (∀ pre suf, ds = pre ++ suf →
      ∃ n, (runR B (initR B) pre).output.map (fun x => x.seq) =
        List.range n) := by
  have hnd : (ds.map (fun x => x.seq)).Nodup := hperm.symm.nodup (List.nodup_range K)
  have hfin := runR_Inv B hB ds [] (initR B) (by simpa using hnd) (initR_Inv B)
  obtain ⟨hlen, hout, hsub, hcong, hkey, hstag⟩ := hfin
  have hle : (runR B (initR B) ds).next_expected_seq ≤ K := by
    by_contra hgt
    have hKmem : K ∈ [] ++ ds.map (fun x => x.seq) := hsub K (by omega)
    have : K ∈ List.range K := hperm.mem_iff.mp (by simpa using hKmem)
    simp at this
  have hge : K ≤ (runR B (initR B) ds).next_expected_seq := by
    by_contra hlt
    have hnmem : (runR B (initR B) ds).next_expected_seq ∈
        ds.map (fun x => x.seq) :=
      hperm.symm.mem_iff.mp (List.mem_range.mpr (by omega))
    have hfmem : (runR B (initR B) ds).next_expected_seq ∈
        (([] : List Nat) ++ ds.map (fun x => x.seq)).filter
          (fun s => (runR B (initR B) ds).next_expected_seq ≤ s) := by
      refine List.mem_filter.mpr ⟨by simpa using hnmem, by simp⟩
    have hsmem := hstag.symm.mem_iff.mp hfmem
    rcases List.eq_nil_or_concat ds with rfl | ⟨ds2, dl, rfl⟩
    · have hK0 : K = 0 := List.range_eq_nil.mp hperm.symm.eq_nil
      omega
    · have hstep : runR B (initR B) (ds2 ++ [dl]) =
          step B (runR B (initR B) ds2) dl := by
        rw [runR, List.foldl_append]
        rfl
      have hnr : notReady B (runR B (initR B) (ds2.concat dl)) := by
        rw [List.concat_eq_append, hstep, step]
        exact tryOutput_notReady B _
      exact notReady_staged B _ hB hlen hcong hnr hsmem
  have hnext : (runR B (initR B) ds).next_expected_seq = K := by omega
  have hout2 : (runR B (initR B) ds).output.map (fun x => x.seq) =
      List.range K := by rw [hout, hnext]
  have hlenout : (runR B (initR B) ds).output.length = K := by
    have := congrArg List.length hout2
    simpa using this
  have hseqj : ∀ j, j < K →
      ((runR B (initR B) ds).output.getD j ⟨0, 0⟩).seq = j := by
    intro j hj
    have hjlen : j < (runR B (initR B) ds).output.length := by omega
    rw [List.getD_eq_getElem?_getD, List.getElem?_eq_getElem hjlen]
    show ((runR B (initR B) ds).output[j]).seq = j
    have hmapj : ((runR B (initR B) ds).output.map (fun x => x.seq)).getD j 0 =
        j := by
      have hjr : j < (List.range K).length := by simpa using hj
      rw [hout2, List.getD_eq_getElem?_getD, List.getElem?_eq_getElem hjr]
      show (List.range K)[j] = j
      apply List.getElem_range
    rw [List.getD_eq_getElem?_getD, List.getElem?_map,
      List.getElem?_eq_getElem hjlen] at hmapj
    exact hmapj
  refine ⟨hout2, ?_, ?_⟩
  · intro j hj
    rw [hseqj (j + 1) (by omega), hseqj j (by omega)]
  · intro pre suf hsplit
    have hndpre : (pre.map (fun x => x.seq)).Nodup := by
      rw [hsplit, List.map_append] at hnd
      exact (List.nodup_append.mp hnd).1
    have hpre := runR_Inv B hB pre [] (initR B) (by simpa using hndpre)
      (initR_Inv B)
    exact ⟨(runR B (initR B) pre).next_expected_seq, hpre.2.1⟩

end Reorderer

/-!
Concrete instantiations of the per-claim theorems, with every hypothesis
discharged on explicit inputs.
-/

/-- C1 at a concrete instance: three messages `1, 0, 2` arriving out of
order through a 4-slot fast buffer come out as `0, 1, 2`. -/
theorem reorderer_in_order_output_witness :
    (0 < 4) ∧
    (Reorderer.runR 4 (Reorderer.initR 4)
        [⟨1, 10⟩, ⟨0, 20⟩, ⟨2, 30⟩]).output.map (fun x => x.seq) =
      List.range 3 :=
  ⟨by decide,
   (Reorderer.reorderer_in_order_output 4 3 (by decide)
      [⟨1, 10⟩, ⟨0, 20⟩, ⟨2, 30⟩] (by decide)).1⟩

/-- C2 at a concrete instance: explicit-sequence pushes `0, 1` with
interleaved pops on a 2-slot queue pop `vals 0, vals 1` in order. -/
theorem seq_mpsc_explicit_fifo_witness :
    ([100, 101] : List Nat) =
      (List.range (([SeqMpsc.Op.pushE 0 100, SeqMpsc.Op.pop,
          SeqMpsc.Op.pushE 1 101, SeqMpsc.Op.pop] : List (SeqMpsc.Op Nat)).countP
        SeqMpsc.isPop)).map (fun n => n + 100) :=
  SeqMpsc.seq_mpsc_explicit_fifo (N := 2) (m := 1) rfl (by norm_num) 0
    (fun n => n + 100)
    [SeqMpsc.Op.pushE 0 100, SeqMpsc.Op.pop,
      SeqMpsc.Op.pushE 1 101, SeqMpsc.Op.pop]
    ⟨rfl, rfl, trivial⟩ ⟨[2, 3], [100, 101], 0, 0, 2⟩ [100, 101] (by decide)

/-- C3 at a concrete instance: an 8-cell ring takes exactly 7 values and
pops them back in order. -/
theorem spsc_fill_then_drain_witness :
    ([1, 2, 3, 4, 5, 6, 7] : List Nat).length = 8 - 1 ∧
    (Spsc.popN 8
      (Spsc.pushList 8 (Spsc.init Nat 8 0) [1, 2, 3, 4, 5, 6, 7]).2 (8 - 1)).1 =
      ([1, 2, 3, 4, 5, 6, 7] : List Nat).map some :=
  ⟨by decide,
   (Spsc.spsc_fill_then_drain (N := 8) (m := 3) rfl (by norm_num) 0 99
      [1, 2, 3, 4, 5, 6, 7] (by decide)).2.2.2.1⟩

/-- C4 at a concrete instance: a bulk push of 3 values into a fresh 4-cell
ring reports `min 3 (available_space)`. -/
theorem push_bulk_copies_min_free_witness :
    Spsc.WF 4 (Spsc.init Nat 4 0) ∧
    (Spsc.push_bulk 4 (Spsc.init Nat 4 0) [5, 6, 7] 3).1 =
      min 3 (Spsc.available_space 4 (Spsc.init Nat 4 0).head
        (Spsc.init Nat 4 0).tail) :=
  ⟨by unfold Spsc.WF; decide,
   (Spsc.push_bulk_copies_min_free (N := 4) (m := 2) rfl (Spsc.init Nat 4 0)
      [5, 6, 7] 3 (by unfold Spsc.WF; decide)).1⟩

/-- C5 (amended) at a concrete instance: popping the fresh, empty 4-cell
SPSC fails and leaves it untouched. -/
theorem pop_on_empty_all_variants_witness :
    Spsc.pop 4 (Spsc.init Nat 4 0) = (none, Spsc.init Nat 4 0) :=
  (pop_on_empty_all_variants (N := 4) (m := 2) (M := 1) rfl (by norm_num)
    (by norm_num) 0).1 (Spsc.init Nat 4 0) Spsc.Reachable.init rfl

/-- C6 at a concrete instance: a 2-cell ring is full after one push; the
next push fails and changes nothing. -/
theorem push_on_full_no_modification_witness :
    Spsc.push 2 (Spsc.stepOp 2 (Spsc.init Nat 2 0) (Spsc.Op.push 5)) 7 =
      (false, Spsc.stepOp 2 (Spsc.init Nat 2 0) (Spsc.Op.push 5)) :=
  (push_on_full_no_modification (N := 2) (m := 1) (M := 1) rfl (by norm_num)
    0).1 _ (Spsc.Reachable.step _ Spsc.Reachable.init)
    (by unfold Spsc.isFull; decide) 7

/-- C7 at a concrete instance: in a fresh 4-slot queue every slot `i`'s tag
has the form `i + k·4` or `i + k·4 + 1`. -/
theorem seq_mpsc_slot_invariant_witness :
    ∃ k, (SeqMpsc.init Nat 4 0).seqs.getD 2 0 = 2 + k * 4 ∨
      (SeqMpsc.init Nat 4 0).seqs.getD 2 0 = 2 + k * 4 + 1 :=
  (SeqMpsc.seq_mpsc_slot_invariant (N := 4) (m := 2) rfl (by norm_num) 0
    (SeqMpsc.init Nat 4 0) ⟨[], [], rfl⟩).1 2 (by decide)

/-- C8 at a concrete instance: the round-robin sweep over two fresh (empty)
shards fails and leaves the state unchanged. -/
theorem sharded_pop_round_robin_witness :
    ShardedMpsc.pop 2 2 (ShardedMpsc.init Nat 2 2 0) =
      (none, ShardedMpsc.init Nat 2 2 0) :=
  (ShardedMpsc.sharded_pop_round_robin (N := 2) (m := 1) rfl (by norm_num) 0
    _ ShardedMpsc.Reachable.init).1 (by decide)

/-- C10 at a concrete instance: the slot-seq push of sequence 0 into a
fresh 4-slot queue completes with result `true`. -/
theorem seq_push_never_fails_witness :
    SeqMpsc.push_with_writer 4 (SeqMpsc.init Nat 4 0) 0 (99 : Nat) =
      some (true, ⟨[1, 1, 2, 3], [99, 0, 0, 0], 1, 0, 0⟩) ∧
    (true, (⟨[1, 1, 2, 3], [99, 0, 0, 0], 1, 0, 0⟩ : SeqMpsc.State Nat)).1 = true :=
  ⟨by decide,
   (SeqMpsc.seq_push_never_fails 4 (SeqMpsc.init Nat 4 0) 0 99
      (true, ⟨[1, 1, 2, 3], [99, 0, 0, 0], 1, 0, 0⟩)).1 (by decide)⟩
